import Mathlib

/-!
The `evens` seq_file module.

A shallow embedding of `evens-english-comments.c` (`evens.c` is the same code
with Russian comments): the four `seq_operations` callbacks `ct_seq_start`,
`ct_seq_show`, `ct_seq_next`, `ct_seq_stop`, and `ct_init`.

Conventions of the embedding.

* The module's globals (`limit`, `even_ptr`) and the part of the kernel that
  the callbacks touch (the `kmalloc` heap, the `/proc` table) form the record
  `Kernel`; every callback is a function on it.
* A pointer is an address `Addr`; `0` is `NULL`.  Dereferencing an address
  that is not live is undefined behaviour in C and is `none` here.
* `int` is a 32-bit and `loff_t` a 64-bit two's complement integer (the kernel
  is built with wrapping signed arithmetic): results are reduced with
  `toInt32` and `toInt64`.
* A `loff_t *pos` argument is passed as a value and returned as a value.
* `printk` only writes to the kernel log and is left out; the `seq_file *s`
  argument of `start`, `next` and `stop` is only read by `printk` and is left
  out with it.
* `kmalloc`, `kfree`, `proc_create` and `seq_printf` belong to the kernel, not
  to the module.  `kmalloc` is a bump allocator that is told whether to
  succeed, `proc_create` is told whether to succeed, and `seq_printf` (with
  the module's fixed format string) is a parameter of `ct_seq_show`.
-/

namespace Evens

/-- A kernel address; `0` is `NULL`. -/
abbrev Addr := Nat

/-- The null pointer. -/
def NULL : Addr := 0

/-- Reduction of an integer to the range of a 32-bit signed `int`. -/
def toInt32 (x : Int) : Int := (x + 2147483648) % 4294967296 - 2147483648

/-- Reduction of an integer to the range of a 64-bit signed `loff_t`. -/
def toInt64 (x : Int) : Int :=
  (x + 9223372036854775808) % 18446744073709551616 - 9223372036854775808

/-- The module's globals together with the kernel state its callbacks touch.
`limit` and `even_ptr` are the two `static` variables of the module; `mem` is
the list of live `kmalloc`ed `int` cells (address, content); `brk` is the last
address the allocator handed out; `allocs` and `frees` count the successful
`kmalloc` calls and the `kfree` calls that released a cell; `proc` lists the
registered `/proc` entries. -/
structure Kernel where
  limit : Int
  even_ptr : Addr
  mem : List (Addr × Int)
  brk : Addr
  allocs : Nat
  frees : Nat
  proc : List String
deriving DecidableEq, Repr

/-- The state right after the module's image is loaded with parameter
`limit = n`: `even_ptr` is zero-initialised, nothing is allocated. -/
def boot (n : Int) : Kernel :=
  { limit := n, even_ptr := NULL, mem := [], brk := 0, allocs := 0, frees := 0, proc := [] }

/-- Read of the `int` at address `p`; `none` when no live cell is there. -/
def load : List (Addr × Int) → Addr → Option Int
  | [], _ => none
  | c :: m, p => if c.1 = p then some c.2 else load m p

/-- Write of `x` to the `int` at address `p`. -/
def store : List (Addr × Int) → Addr → Int → List (Addr × Int)
  | [], _, _ => []
  | c :: m, p, x => if c.1 = p then (p, x) :: m else c :: store m p x

/-- Removal of the cell at address `p`. -/
def release : List (Addr × Int) → Addr → List (Addr × Int)
  | [], _ => []
  | c :: m, p => if c.1 = p then m else c :: release m p

/-- Kernel `kmalloc(sizeof(int), GFP_KERNEL)`: on success a fresh cell at the
next address, on failure `NULL` and no change.  The content of a fresh cell is
unspecified in C; here it is 0, and `ct_seq_start` overwrites it at once. -/
def kmalloc (ok : Bool) (k : Kernel) : Kernel × Addr :=
  if ok then
    ({ k with mem := (k.brk + 1, 0) :: k.mem, brk := k.brk + 1, allocs := k.allocs + 1 },
      k.brk + 1)
  else (k, NULL)

/-- Kernel `kfree(p)`: nothing for `NULL`, releases a live cell, and is
undefined (`none`) for an address that is not live (a double free). -/
def kfree (p : Addr) (k : Kernel) : Option Kernel :=
  if p = NULL then some k
  else
    match load k.mem p with
    | none => none
    | some _ => some { k with mem := release k.mem p, frees := k.frees + 1 }

/-- Kernel `proc_create(name, ...)`: registers the entry when it succeeds and
returns whether it did. -/
def proc_create (ok : Bool) (name : String) (k : Kernel) : Kernel × Bool :=
  if ok then ({ k with proc := name :: k.proc }, true) else (k, false)

/-- The callback `ct_seq_start(s, pos)`; `ok` tells whether its `kmalloc`
succeeds.  Returns the new state, `*pos` (not written) and the returned
pointer. -/
def ct_seq_start (k : Kernel) (ok : Bool) (pos : Int) : Kernel × Int × Addr :=
  if pos ≥ k.limit then (k, pos, NULL)
  else
    let k1 := { (kmalloc ok k).1 with even_ptr := (kmalloc ok k).2 }
    if k1.even_ptr = NULL then (k1, pos, NULL)
    else
      ({ k1 with mem := store k1.mem k1.even_ptr (toInt32 (toInt64 (pos * 2))) },
        pos, k1.even_ptr)

/-- The callback `ct_seq_show(s, v)`: hands `*(int*)v` to `seq_printf` and
returns 0.  Returns the state, the sink and the return value. -/
def ct_seq_show {σ : Type} (seq_printf : σ → Int → σ) (k : Kernel) (s : σ) (v : Addr) :
    Option (Kernel × σ × Int) :=
  match load k.mem v with
  | none => none
  | some x => some (k, seq_printf s x, 0)

/-- The callback `ct_seq_next(s, v, pos)`.  Returns the new state, the new
`*pos` and the returned pointer. -/
def ct_seq_next (k : Kernel) (v : Addr) (pos : Int) : Option (Kernel × Int × Addr) :=
  if toInt64 (pos + 1) ≥ k.limit then some (k, toInt64 (pos + 1), NULL)
  else
    match load k.mem v with
    | none => none
    | some x => some ({ k with mem := store k.mem v (toInt32 (x + 2)) }, toInt64 (pos + 1), v)

/-- The callback `ct_seq_stop(s, v)`: frees and clears `even_ptr` when it is
not `NULL`; `v` is only printed. -/
def ct_seq_stop (k : Kernel) (_v : Addr) : Option Kernel :=
  if k.even_ptr ≠ NULL then
    match kfree k.even_ptr k with
    | none => none
    | some k1 => some { k1 with even_ptr := NULL }
  else some k

/-- The module's `ct_init`: calls `proc_create("evens", ...)`, ignores its
result and returns 0; `ok` tells whether `proc_create` succeeds. -/
def ct_init (k : Kernel) (ok : Bool) : Kernel × Int :=
  ((proc_create ok "evens" k).1, 0)

/-- The sink that records the values handed to `seq_printf`, in order. -/
def record (s : List Int) (x : Int) : List Int := s ++ [x]

/-- The reader's loop: up to `n` rounds of `show` then `next`, stopping at the
first `next` that returns `NULL`.  Returns the state, the sink, the last
pointer returned and `*pos`. -/
def pairs {σ : Type} (seq_printf : σ → Int → σ) :
    Nat → Kernel → σ → Addr → Int → Option (Kernel × σ × Addr × Int)
  | 0, k, s, v, pos => some (k, s, v, pos)
  | n + 1, k, s, v, pos =>
    match ct_seq_show seq_printf k s v with
    | none => none
    | some (k1, s1, _) =>
      match ct_seq_next k1 v pos with
      | none => none
      | some (k2, pos2, v2) =>
        if v2 = NULL then some (k2, s1, NULL, pos2) else pairs seq_printf n k2 s1 v2 pos2

/-- A read without the final `stop`: `start` at `pos`, then, when it returned
a pointer, up to `n` rounds of `show` and `next`. -/
def run {σ : Type} (seq_printf : σ → Int → σ) (n : Nat) (k : Kernel) (ok : Bool) (s : σ)
    (pos : Int) : Option (Kernel × σ × Addr × Int) :=
  let r := ct_seq_start k ok pos
  if r.2.2 = NULL then some (r.1, s, NULL, r.2.1) else pairs seq_printf n r.1 s r.2.2 r.2.1

/-- A whole session in the reader's order: `run`, then one `stop` with the
last pointer returned. -/
def session {σ : Type} (seq_printf : σ → Int → σ) (n : Nat) (k : Kernel) (ok : Bool) (s : σ)
    (pos : Int) : Option (Kernel × σ × Addr × Int) :=
  match run seq_printf n k ok s pos with
  | none => none
  | some (k1, s1, v1, pos1) =>
    match ct_seq_stop k1 v1 with
    | none => none
    | some k2 => some (k2, s1, v1, pos1)

/-- The state invariant of the global pointer: `even_ptr` is `NULL` or points
to a live cell (it never dangles). -/
def WF (k : Kernel) : Prop :=
  k.even_ptr ≠ NULL → (load k.mem k.even_ptr).isSome

/-- An integer in the range of a 32-bit signed `int`. -/
def IsInt32 (x : Int) : Prop := -2147483648 ≤ x ∧ x ≤ 2147483647

instance (k : Kernel) : Decidable (WF k) := by
  unfold WF; infer_instance

instance (x : Int) : Decidable (IsInt32 x) := by
  unfold IsInt32; infer_instance

/-- A call the reader makes on a cursor between `start` and `stop`. -/
inductive Call where
  | seqShow : Call
  | seqNext : Call
deriving DecidableEq, Repr

/-- Any sequence of `show` and `next` calls on the cursor `v`, each `next`
being passed the pointer the previous one returned; it ends at the first
`next` that returns `NULL`.  Returns the state, the sink, the last pointer
returned and `*pos`. -/
def steps {σ : Type} (seq_printf : σ → Int → σ) :
    List Call → Kernel → σ → Addr → Int → Option (Kernel × σ × Addr × Int)
  | [], k, s, v, pos => some (k, s, v, pos)
  | Call.seqShow :: cs, k, s, v, pos =>
    match ct_seq_show seq_printf k s v with
    | none => none
    | some (k1, s1, _) => steps seq_printf cs k1 s1 v pos
  | Call.seqNext :: cs, k, s, v, pos =>
    match ct_seq_next k v pos with
    | none => none
    | some (k1, pos1, v1) =>
      if v1 = NULL then some (k1, s, NULL, pos1) else steps seq_printf cs k1 s v1 pos1

/-- A sequence of `stop` calls, one for each pointer of the list. -/
def stops : List Addr → Kernel → Option Kernel
  | [], k => some k
  | w :: ws, k =>
    match ct_seq_stop k w with
    | none => none
    | some k1 => stops ws k1

/-! ## Machine arithmetic -/

theorem toInt32_of_range (x : Int) (h1 : -2147483648 ≤ x) (h2 : x ≤ 2147483647) :
    toInt32 x = x := by
  unfold toInt32; omega

theorem toInt64_of_range (x : Int) (h1 : -9223372036854775808 ≤ x)
    (h2 : x ≤ 9223372036854775807) : toInt64 x = x := by
  unfold toInt64; omega

theorem toInt32_toInt64 (x : Int) : toInt32 (toInt64 x) = toInt32 x := by
  unfold toInt32 toInt64; omega

theorem toInt32_add_two (x : Int) : toInt32 (toInt32 x + 2) = toInt32 (x + 2) := by
  unfold toInt32; omega

/-! ## The heap -/

theorem load_store_same (m : List (Addr × Int)) (p : Addr) (x : Int)
    (h : (load m p).isSome) : load (store m p x) p = some x := by
  induction m with
  | nil => simp [load] at h
  | cons c m ih =>
    by_cases hc : c.1 = p
    · simp [store, load, hc]
    · simp [store, load, hc] at h ⊢
      exact ih h

theorem store_store (m : List (Addr × Int)) (p : Addr) (x y : Int) :
    store (store m p x) p y = store m p y := by
  induction m with
  | nil => simp [store]
  | cons c m ih =>
    by_cases hc : c.1 = p
    · simp [store, hc]
    · simp [store, hc, ih]

theorem store_load_self (m : List (Addr × Int)) (p : Addr) (x : Int)
    (h : load m p = some x) : store m p x = m := by
  induction m with
  | nil => simp [load] at h
  | cons c m ih =>
    by_cases hc : c.1 = p
    · simp [load, hc] at h
      simp [store, hc]
      exact Prod.ext hc.symm h.symm
    · simp [load, hc] at h
      simp [store, hc, ih h]

theorem store_fst (m : List (Addr × Int)) (p : Addr) (x : Int) :
    (store m p x).map Prod.fst = m.map Prod.fst := by
  induction m with
  | nil => simp [store]
  | cons c m ih =>
    by_cases hc : c.1 = p
    · simp [store, hc]
    · simp [store, hc, ih]

theorem load_isSome_iff (m : List (Addr × Int)) (p : Addr) :
    (load m p).isSome ↔ p ∈ m.map Prod.fst := by
  induction m with
  | nil => simp [load]
  | cons c m ih =>
    by_cases hc : c.1 = p
    · simp [load, hc]
    · have hc2 : ¬ p = c.1 := fun h => hc h.symm
      simp [load, hc, hc2, ih]

theorem load_store_isSome (m : List (Addr × Int)) (p q : Addr) (x : Int) :
    (load (store m p x) q).isSome = (load m q).isSome := by
  have h1 := load_isSome_iff (store m p x) q
  have h2 := load_isSome_iff m q
  rw [store_fst] at h1
  exact Bool.eq_iff_iff.mpr (h1.trans h2.symm)

/-! ## The reader's loop -/

theorem foldl_range_shift {σ : Type} (g : σ → Int → σ) (s : σ) (i : Int) (d : Nat) :
    (List.range (d + 1)).foldl (fun acc (j : Nat) => g acc (2 * (i + j))) s
      = (List.range d).foldl (fun acc (j : Nat) => g acc (2 * (i + 1 + j))) (g s (2 * i)) := by
  rw [List.range_succ_eq_map, List.foldl_cons, List.foldl_map]
  have hf : (fun (acc : σ) (j : Nat) => g acc (2 * (i + ((j + 1 : Nat) : Int))))
      = (fun (acc : σ) (j : Nat) => g acc (2 * (i + 1 + j))) := by
    funext acc j
    congr 1
    push_cast
    ring
  simp only [Nat.succ_eq_add_one, hf]
  simp

theorem foldl_record (s : List Int) (f : Nat → Int) (l : List Nat) :
    l.foldl (fun acc j => record acc (f j)) s = s ++ l.map f := by
  induction l generalizing s with
  | nil => simp
  | cons a l ih =>
    simp only [List.foldl_cons, List.map_cons]
    rw [ih]
    simp [record]

/-- From a live cursor at position `i` holding `2 * i`, with `d` positions left
below the limit and at least `d` rounds allowed, the loop shows
`2 * i, ..., 2 * (limit - 1)` and ends with `next` returning `NULL` at
`*pos = limit`. -/
theorem pairs_full {σ : Type} (seq_printf : σ → Int → σ) (v : Addr) (hv : v ≠ NULL) :
    ∀ (d n : Nat) (k : Kernel) (s : σ) (i : Int), 0 ≤ i → i + d = k.limit →
      2 * (k.limit - 1) ≤ 2147483647 → d ≤ n → 0 < d → load k.mem v = some (2 * i) →
      pairs seq_printf n k s v i
        = some ({ k with mem := store k.mem v (2 * (k.limit - 1)) },
            (List.range d).foldl (fun acc (j : Nat) => seq_printf acc (2 * (i + j))) s,
            NULL, k.limit) := by
  intro d
  induction d with
  | zero => intro n k s i _ _ _ _ h0; omega
  | succ d ih =>
    intro n k s i hi hlim hsmall hn _ hload
    obtain ⟨n, rfl⟩ : ∃ m, n = m + 1 := ⟨n - 1, by omega⟩
    have h64 : toInt64 (i + 1) = i + 1 := toInt64_of_range _ (by omega) (by omega)
    rw [foldl_range_shift]
    by_cases hd : d = 0
    · subst hd
      have hge : i + 1 ≥ k.limit := by push_cast at hlim; omega
      have hval : (2 : Int) * (k.limit - 1) = 2 * i := by push_cast at hlim; omega
      have hk : ({ k with mem := store k.mem v (2 * (k.limit - 1)) } : Kernel) = k := by
        rw [hval, store_load_self _ _ _ hload]
      have hpos : i + 1 = k.limit := by push_cast at hlim; omega
      have hshow : ct_seq_show seq_printf k s v = some (k, seq_printf s (2 * i), 0) := by
        simp [ct_seq_show, hload]
      have hnext : ct_seq_next k v i = some (k, i + 1, NULL) := by
        simp only [ct_seq_next, h64, if_pos hge]
      simp only [pairs, hshow, hnext, hk, hpos]
      simp
    · have hlt : ¬ i + 1 ≥ k.limit := by push_cast at hlim; omega
      have h32 : toInt32 (2 * i + 2) = 2 * (i + 1) := by
        rw [toInt32_of_range _ (by omega) (by push_cast at hlim; omega)]; ring
      have hload2 : load (store k.mem v (2 * (i + 1))) v = some (2 * (i + 1)) :=
        load_store_same _ _ _ (by simp [hload])
      have := ih n { k with mem := store k.mem v (2 * (i + 1)) } (seq_printf s (2 * i)) (i + 1)
        (by omega) (by push_cast at hlim; simpa using by omega) hsmall (by omega) (by omega)
        hload2
      simp only [store_store] at this
      have hshow : ct_seq_show seq_printf k s v = some (k, seq_printf s (2 * i), 0) := by
        simp [ct_seq_show, hload]
      have hnext : ct_seq_next k v i
          = some ({ k with mem := store k.mem v (2 * (i + 1)) }, i + 1, v) := by
        simp only [ct_seq_next, h64, if_neg hlt, hload, h32]
      simp only [pairs, hshow, hnext, if_neg hv]
      exact this

/-- A read from position 0 with a successful allocation and at least `limit`
rounds allowed shows `2 * 0, ..., 2 * (limit - 1)` to the sink and ends with
`NULL` at `*pos = limit`. -/
theorem run_full {σ : Type} (seq_printf : σ → Int → σ) (k : Kernel) (s : σ) (n L : Nat)
    (hL : k.limit = L) (hsmall : 2 * (k.limit - 1) ≤ 2147483647) (hfuel : L ≤ n) :
    ∃ k', run seq_printf n k true s 0
      = some (k', (List.range L).foldl (fun acc (i : Nat) => seq_printf acc (2 * (i : Int))) s,
          NULL, (L : Int)) := by
  by_cases h0 : L = 0
  · subst h0
    refine ⟨k, ?_⟩
    simp [run, ct_seq_start, hL]
  · have hpos : ¬ (0 : Int) ≥ k.limit := by rw [hL]; omega
    have hstart : ct_seq_start k true 0
        = ({ k with even_ptr := k.brk + 1, mem := (k.brk + 1, 0) :: k.mem, brk := k.brk + 1,
                    allocs := k.allocs + 1 }, 0, k.brk + 1) := by
      simp [ct_seq_start, kmalloc, hpos, NULL, store, toInt32, toInt64]
    have hv : k.brk + 1 ≠ NULL := by simp [NULL]
    have hp := pairs_full seq_printf (k.brk + 1) hv L n
      { k with even_ptr := k.brk + 1, mem := (k.brk + 1, 0) :: k.mem, brk := k.brk + 1,
               allocs := k.allocs + 1 } s 0 (le_refl _) (by simp [hL]) hsmall hfuel
      (by omega) (by simp [load])
    simp only [zero_add] at hp
    refine ⟨{ k with even_ptr := k.brk + 1,
                     mem := store ((k.brk + 1, 0) :: k.mem) (k.brk + 1) (2 * (k.limit - 1)),
                     brk := k.brk + 1, allocs := k.allocs + 1 }, ?_⟩
    simp only [run, hstart, if_neg hv]
    rw [hp, hL]

/-- C1: for every limit `L >= 0` with `2 * (L - 1)` in the range of a 32-bit
`int`, a read driven from `start` at position 0 with a successful allocation,
doing `show` then `next` until `next` returns `NULL` (at least `L` rounds
allowed), hands exactly the `L` values `2 * 0, 2 * 1, ..., 2 * (L - 1)` to the
sink, in that order, and ends with `NULL` at position `L`; with the recording
sink the output is the list of `2 * i` for `i = 0, ..., L - 1`. -/
theorem full_read_elements {σ : Type} (seq_printf : σ → Int → σ) (k : Kernel) (s : σ)
    (n L : Nat) (hL : k.limit = L) (hsmall : 2 * (k.limit - 1) ≤ 2147483647) (hfuel : L ≤ n) :
    (∃ k', run seq_printf n k true s 0
      = some (k', (List.range L).foldl (fun acc (i : Nat) => seq_printf acc (2 * (i : Int))) s,
          NULL, (L : Int)))
    ∧ (∃ k', run record n k true [] 0
      = some (k', (List.range L).map (fun (i : Nat) => 2 * (i : Int)), NULL, (L : Int))) := by
  refine ⟨run_full seq_printf k s n L hL hsmall hfuel, ?_⟩
  obtain ⟨k', hk'⟩ := run_full record k [] n L hL hsmall hfuel
  refine ⟨k', ?_⟩
  rw [hk', foldl_record]
  simp

/-- The default `limit = 10` read outputs 0, 2, ..., 18 and then ends; the
`limit = 1` read outputs 0 and ends at the first `next`. -/
theorem full_read_elements_witness :
    (∃ k', run record 10 (boot 10) true [] 0
        = some (k', [0, 2, 4, 6, 8, 10, 12, 14, 16, 18], NULL, 10))
    ∧ (∃ k', run record 1 (boot 1) true [] 0 = some (k', [0], NULL, 1)) :=
  ⟨(full_read_elements record (boot 10) [] 10 10 rfl (by decide) (le_refl _)).2,
   (full_read_elements record (boot 1) [] 1 1 rfl (by decide) (le_refl _)).2⟩

/-! ## `start` -/

/-- The result of `start` at or above the limit. -/
theorem start_done (k : Kernel) (ok : Bool) (pos : Int) (h : pos ≥ k.limit) :
    ct_seq_start k ok pos = (k, pos, NULL) := by
  simp [ct_seq_start, h]

/-- C2: for every limit and every position `pos >= limit`, `start` returns
`NULL` and leaves the whole state as it was: no allocation is made and
`even_ptr` keeps its content; this covers `limit = 0` with `pos = 0`. -/
theorem start_exhausted (k : Kernel) (ok : Bool) (pos : Int) (h : pos ≥ k.limit) :
    ct_seq_start k ok pos = (k, pos, NULL)
    ∧ (ct_seq_start k ok pos).1.allocs = k.allocs
    ∧ (ct_seq_start k ok pos).1.even_ptr = k.even_ptr := by
  rw [start_done k ok pos h]
  exact ⟨rfl, rfl, rfl⟩

/-- With `limit = 0`, `start` at position 0 returns `NULL` at once and nothing
is allocated. -/
theorem start_exhausted_witness :
    (0 : Int) ≥ (boot 0).limit
    ∧ ct_seq_start (boot 0) true 0 = (boot 0, 0, NULL)
    ∧ (ct_seq_start (boot 0) true 0).1.allocs = (boot 0).allocs
    ∧ (ct_seq_start (boot 0) true 0).1.even_ptr = (boot 0).even_ptr :=
  ⟨by decide, start_exhausted (boot 0) true 0 (by decide)⟩

/-- The result of `start` below the limit when `kmalloc` succeeds. -/
theorem start_ok (k : Kernel) (p : Int) (hlt : p < k.limit) :
    ct_seq_start k true p
      = ({ k with even_ptr := k.brk + 1, mem := (k.brk + 1, toInt32 (p * 2)) :: k.mem,
                  brk := k.brk + 1, allocs := k.allocs + 1 }, p, k.brk + 1) := by
  have hpos : ¬ p ≥ k.limit := by omega
  simp [ct_seq_start, kmalloc, hpos, NULL, store, toInt32_toInt64]

/-- The result of `start` below the limit when `kmalloc` fails. -/
theorem start_fail (k : Kernel) (p : Int) (hlt : p < k.limit) :
    ct_seq_start k false p = ({ k with even_ptr := NULL }, p, NULL) := by
  have hpos : ¬ p ≥ k.limit := by omega
  simp [ct_seq_start, kmalloc, hpos]

/-- C3 fails as stated: with `limit = 2^31 - 1` and start position `2^30` the
cursor returned by `start` holds `-2^31`, not `2^30 * 2`. -/
theorem start_value_wraps :
    (0 : Int) ≤ 1073741824 ∧ (1073741824 : Int) < (boot 2147483647).limit
    ∧ load (ct_seq_start (boot 2147483647) true 1073741824).1.mem
        (ct_seq_start (boot 2147483647) true 1073741824).2.2 = some (-2147483648)
    ∧ load (ct_seq_start (boot 2147483647) true 1073741824).1.mem
        (ct_seq_start (boot 2147483647) true 1073741824).2.2 ≠ some (1073741824 * 2) := by
  decide

/-- C3 (amended): for every position `p` with `0 <= p < limit`, when `kmalloc`
succeeds `start` returns a non-null pointer with `*pos` still `p`; the pointer
is the one stored in `even_ptr`; the cell it points to holds `p * 2` reduced to
a 32-bit `int`, which is exactly `p * 2` whenever `p * 2 <= 2^31 - 1`. -/
theorem start_cursor (k : Kernel) (p : Int) (h0 : 0 ≤ p) (hlt : p < k.limit) :
    ∃ k' v, ct_seq_start k true p = (k', p, v) ∧ v ≠ NULL ∧ k'.even_ptr = v
      ∧ k'.allocs = k.allocs + 1
      ∧ load k'.mem v = some (toInt32 (p * 2))
      ∧ (p * 2 ≤ 2147483647 → load k'.mem v = some (p * 2)) := by
  refine ⟨_, _, start_ok k p hlt, by simp [NULL], rfl, rfl, by simp [load], ?_⟩
  intro hs
  simp [load, toInt32_of_range (p * 2) (by omega) hs]

/-- With the default `limit = 10`, `start` at position 3 returns a cursor
holding 6. -/
theorem start_cursor_witness :
    ∃ k' v, ct_seq_start (boot 10) true 3 = (k', 3, v) ∧ v ≠ NULL ∧ k'.even_ptr = v
      ∧ k'.allocs = (boot 10).allocs + 1
      ∧ load k'.mem v = some (toInt32 (3 * 2))
      ∧ ((3 : Int) * 2 ≤ 2147483647 → load k'.mem v = some (3 * 2)) :=
  start_cursor (boot 10) 3 (by decide) (by decide)

/-! ## The invariant of `even_ptr` -/

theorem WF_boot (n : Int) : WF (boot n) := by
  simp [WF, boot]

theorem WF_start (k : Kernel) (ok : Bool) (pos : Int) (h : WF k) :
    WF (ct_seq_start k ok pos).1 := by
  by_cases hpos : pos ≥ k.limit
  · simpa [ct_seq_start, hpos] using h
  · cases ok
    · rw [start_fail k pos (by omega)]; simp [WF]
    · rw [start_ok k pos (by omega)]; simp [WF, load]

theorem WF_next (k k' : Kernel) (v v' : Addr) (pos pos' : Int) (h : WF k)
    (hn : ct_seq_next k v pos = some (k', pos', v')) : WF k' := by
  unfold ct_seq_next at hn
  split at hn
  · simp only [Option.some.injEq, Prod.mk.injEq] at hn
    rw [← hn.1]; exact h
  · split at hn
    · simp at hn
    · simp only [Option.some.injEq, Prod.mk.injEq] at hn
      rw [← hn.1]
      intro hp
      simp only [load_store_isSome]
      exact h hp

/-- The result of `stop` when `even_ptr` is `NULL`: nothing changes. -/
theorem stop_null (k : Kernel) (v : Addr) (h : k.even_ptr = NULL) : ct_seq_stop k v = some k := by
  simp [ct_seq_stop, h]

/-- The result of `stop` when `even_ptr` points to a live cell: the cell is
released and `even_ptr` cleared. -/
theorem stop_held (k : Kernel) (v : Addr) (h : k.even_ptr ≠ NULL)
    (hl : (load k.mem k.even_ptr).isSome) :
    ct_seq_stop k v
      = some { k with even_ptr := NULL, mem := release k.mem k.even_ptr,
                      frees := k.frees + 1 } := by
  obtain ⟨x, hx⟩ := Option.isSome_iff_exists.mp hl
  simp [ct_seq_stop, kfree, h, hx]

/-- After a `stop` that returned, `even_ptr` is `NULL`. -/
theorem stop_clears (k k1 : Kernel) (v : Addr) (h : ct_seq_stop k v = some k1) :
    k1.even_ptr = NULL := by
  unfold ct_seq_stop at h
  split at h
  · split at h
    · simp at h
    · rw [← Option.some.inj h]
  · rw [← Option.some.inj h]
    simpa using ‹¬ k.even_ptr ≠ NULL›

theorem WF_stop (k k1 : Kernel) (v : Addr) (h : ct_seq_stop k v = some k1) : WF k1 :=
  fun hp => absurd (stop_clears k k1 v h) hp

/-! ## `next` at the limit, and `stop` -/

/-- C4 fails as stated: with `limit = 1`, after `start` at position 0 the call
of `next` moves the position to 1, returns `NULL`, and `even_ptr` still points
to the live cell; nothing was freed. -/
theorem next_done_not_released :
    ∃ k', ct_seq_next (ct_seq_start (boot 1) true 0).1 (ct_seq_start (boot 1) true 0).2.2 0
        = some (k', 1, NULL)
      ∧ (1 : Int) ≥ k'.limit
      ∧ k'.even_ptr ≠ NULL
      ∧ load k'.mem k'.even_ptr = some 0
      ∧ k'.frees = (ct_seq_start (boot 1) true 0).1.frees :=
  ⟨(ct_seq_start (boot 1) true 0).1, by decide⟩

/-- C4 (amended): when `next` increments the position to a value `>= limit` it
returns `NULL` and leaves the whole state as it was, so the cursor stays
allocated and held in `even_ptr`; the `stop` that follows, whatever pointer
it is passed, releases that cursor once and clears `even_ptr`. -/
theorem next_done_then_stop (k : Kernel) (v w : Addr) (pos : Int)
    (hdone : toInt64 (pos + 1) ≥ k.limit) (hwf : WF k) (hheld : k.even_ptr ≠ NULL) :
    ct_seq_next k v pos = some (k, toInt64 (pos + 1), NULL)
    ∧ ∃ k', ct_seq_stop k w = some k' ∧ k'.even_ptr = NULL ∧ k'.frees = k.frees + 1
        ∧ k'.allocs = k.allocs ∧ k'.mem = release k.mem k.even_ptr := by
  refine ⟨by simp only [ct_seq_next, if_pos hdone], _, stop_held k w hheld (hwf hheld), ?_⟩
  simp

/-- With `limit = 1`, after `start` at 0, `next` returns `NULL` with the state
unchanged and the following `stop(NULL)` frees the cursor. -/
theorem next_done_then_stop_witness :
    ct_seq_next (ct_seq_start (boot 1) true 0).1 1 0
        = some ((ct_seq_start (boot 1) true 0).1, toInt64 (0 + 1), NULL)
    ∧ ∃ k', ct_seq_stop (ct_seq_start (boot 1) true 0).1 NULL = some k' ∧ k'.even_ptr = NULL
        ∧ k'.frees = (ct_seq_start (boot 1) true 0).1.frees + 1
        ∧ k'.allocs = (ct_seq_start (boot 1) true 0).1.allocs
        ∧ k'.mem = release (ct_seq_start (boot 1) true 0).1.mem
            (ct_seq_start (boot 1) true 0).1.even_ptr :=
  next_done_then_stop (ct_seq_start (boot 1) true 0).1 1 NULL 0 (by decide) (by decide)
    (by decide)

/-- C5: `stop` is idempotent.  In every state, `stop` followed by `stop`
(whatever pointers the two are passed) gives what one `stop` gives; after a
`stop` that returned, `even_ptr` is `NULL` and a second `stop` returns the very
same state, so it frees nothing and does not fail; the first `stop` itself
returns in every state where `even_ptr` does not dangle, freeing one cell when
`even_ptr` was set and none otherwise; and a `stop` when `even_ptr` is `NULL`
(no cursor was allocated) changes nothing. -/
theorem stop_idempotent (k : Kernel) (v w : Addr) :
    (ct_seq_stop k v).bind (fun k' => ct_seq_stop k' w) = ct_seq_stop k v
    ∧ (∀ k1, ct_seq_stop k v = some k1 →
        ct_seq_stop k1 w = some k1 ∧ k1.even_ptr = NULL
        ∧ ∀ k2, ct_seq_stop k1 w = some k2 → k2.frees = k1.frees)
    ∧ (WF k → ∃ k1, ct_seq_stop k v = some k1
        ∧ k1.frees = k.frees + (if k.even_ptr = NULL then 0 else 1))
    ∧ (k.even_ptr = NULL → ct_seq_stop k v = some k) := by
  have hsecond : ∀ k1, ct_seq_stop k v = some k1 → ct_seq_stop k1 w = some k1 :=
    fun k1 h => stop_null k1 w (stop_clears k k1 v h)
  refine ⟨?_, ?_, ?_, stop_null k v⟩
  · cases h : ct_seq_stop k v with
    | none => rfl
    | some k1 => rw [Option.some_bind]; exact hsecond k1 h
  · intro k1 h
    refine ⟨hsecond k1 h, stop_clears k k1 v h, ?_⟩
    intro k2 h2
    rw [hsecond k1 h] at h2
    rw [← Option.some.inj h2]
  · intro hwf
    by_cases h : k.even_ptr = NULL
    · exact ⟨k, stop_null k v h, by simp [h]⟩
    · exact ⟨_, stop_held k v h (hwf h), by simp [h]⟩

/-- On the cursor opened by `start(0)`, a `stop` frees it and a second `stop`
returns the same state; in the initial state a `stop` changes nothing. -/
theorem stop_idempotent_witness :
    (∃ k1, ct_seq_stop (ct_seq_start (boot 10) true 0).1 1 = some k1
        ∧ k1.frees = (ct_seq_start (boot 10) true 0).1.frees
            + (if (ct_seq_start (boot 10) true 0).1.even_ptr = NULL then 0 else 1))
    ∧ (ct_seq_stop { boot 10 with brk := 1, allocs := 1, frees := 1 } NULL
          = some { boot 10 with brk := 1, allocs := 1, frees := 1 }
        ∧ ({ boot 10 with brk := 1, allocs := 1, frees := 1 } : Kernel).even_ptr = NULL
        ∧ ∀ k2, ct_seq_stop { boot 10 with brk := 1, allocs := 1, frees := 1 } NULL = some k2 →
            k2.frees = ({ boot 10 with brk := 1, allocs := 1, frees := 1 } : Kernel).frees)
    ∧ ct_seq_stop (boot 10) NULL = some (boot 10) :=
  ⟨(stop_idempotent (ct_seq_start (boot 10) true 0).1 1 NULL).2.2.1 (by decide),
   (stop_idempotent (ct_seq_start (boot 10) true 0).1 1 NULL).2.1
      { boot 10 with brk := 1, allocs := 1, frees := 1 } (by decide),
   (stop_idempotent (boot 10) NULL NULL).2.2.2 rfl⟩

/-! ## Allocation balance of a session -/

/-- The reader's loop on the cursor at the head of the heap never fails and
changes nothing but the content of that cell. -/
theorem pairs_frame {σ : Type} (seq_printf : σ → Int → σ) (a : Addr) (ha : a ≠ NULL)
    (m : List (Addr × Int)) :
    ∀ (n : Nat) (k : Kernel) (s : σ) (pos : Int) (x : Int), k.mem = (a, x) :: m →
      ∃ x' s' v' pos', pairs seq_printf n k s a pos
        = some ({ k with mem := (a, x') :: m }, s', v', pos') := by
  intro n
  induction n with
  | zero =>
    intro k s pos x hm
    refine ⟨x, s, a, pos, ?_⟩
    rw [← hm]
    rfl
  | succ n ih =>
    intro k s pos x hm
    have hload : load k.mem a = some x := by simp [hm, load]
    have hshow : ct_seq_show seq_printf k s a = some (k, seq_printf s x, 0) := by
      simp [ct_seq_show, hload]
    by_cases hdone : toInt64 (pos + 1) ≥ k.limit
    · have hnext : ct_seq_next k a pos = some (k, toInt64 (pos + 1), NULL) := by
        simp only [ct_seq_next, if_pos hdone]
      refine ⟨x, seq_printf s x, NULL, toInt64 (pos + 1), ?_⟩
      simp only [pairs, hshow, hnext, if_true]
      rw [← hm]
    · have hnext : ct_seq_next k a pos
          = some ({ k with mem := (a, toInt32 (x + 2)) :: m }, toInt64 (pos + 1), a) := by
        simp only [ct_seq_next, if_neg hdone, hload]
        simp [hm, store]
      obtain ⟨x', s', v', pos', h⟩ := ih { k with mem := (a, toInt32 (x + 2)) :: m }
        (seq_printf s x) (toInt64 (pos + 1)) (toInt32 (x + 2)) rfl
      refine ⟨x', s', v', pos', ?_⟩
      simp only [pairs, hshow, hnext, if_neg ha]
      exact h

/-- C6: a session in the reader's order that starts with `even_ptr = NULL`
(one `start` at any position, with `kmalloc` succeeding or not, then up to `n`
rounds of `show` and `next` stopping at the first `NULL`, then one `stop` that
is passed the last pointer returned, `NULL` after exhaustion) never fails and
ends with `even_ptr = NULL`, the heap as it was before the session, and as
many frees as allocations, at most one of each. -/
theorem session_balanced {σ : Type} (seq_printf : σ → Int → σ) (n : Nat) (k : Kernel)
    (ok : Bool) (s : σ) (pos : Int) (h0 : k.even_ptr = NULL) :
    ∃ k' s' v' pos', session seq_printf n k ok s pos = some (k', s', v', pos')
      ∧ k'.even_ptr = NULL
      ∧ k'.mem = k.mem
      ∧ k'.allocs - k.allocs = k'.frees - k.frees
      ∧ k.allocs ≤ k'.allocs ∧ k'.allocs ≤ k.allocs + 1 ∧ k.frees ≤ k'.frees := by
  by_cases hpos : pos ≥ k.limit
  · refine ⟨k, s, NULL, pos, ?_⟩
    simp [session, run, ct_seq_start, hpos, stop_null k NULL h0, h0]
  · cases ok
    · refine ⟨k, s, NULL, pos, ?_⟩
      have hk : ({ k with even_ptr := NULL } : Kernel) = k := by rw [← h0]
      simp [session, run, start_fail k pos (by omega), hk, stop_null k NULL h0, h0]
    · have ha : k.brk + 1 ≠ NULL := by simp [NULL]
      obtain ⟨x', s', v', pos', h⟩ := pairs_frame seq_printf (k.brk + 1) ha k.mem n
        { k with even_ptr := k.brk + 1, mem := (k.brk + 1, toInt32 (pos * 2)) :: k.mem,
                 brk := k.brk + 1, allocs := k.allocs + 1 } s pos (toInt32 (pos * 2)) rfl
      have hstop := stop_held
        { k with even_ptr := k.brk + 1, mem := (k.brk + 1, x') :: k.mem,
                 brk := k.brk + 1, allocs := k.allocs + 1 } v' ha (by simp [load])
      refine ⟨{ k with even_ptr := NULL, brk := k.brk + 1, allocs := k.allocs + 1,
                       frees := k.frees + 1 }, s', v', pos', ?_, rfl, rfl, ?_, ?_, ?_, ?_⟩
      · simp only [session, run, start_ok k pos (by omega), if_neg ha, h]
        simp only [hstop]
        simp [release]
      · simp
      · simp
      · simp
      · simp

/-- A default session closed early, after three rounds, ends with
`even_ptr = NULL`, an empty heap and balanced counts. -/
theorem session_balanced_witness :
    (boot 10).even_ptr = NULL
    ∧ ∃ k' s' v' pos', session record 3 (boot 10) true [] 0 = some (k', s', v', pos')
      ∧ k'.even_ptr = NULL
      ∧ k'.mem = (boot 10).mem
      ∧ k'.allocs - (boot 10).allocs = k'.frees - (boot 10).frees
      ∧ (boot 10).allocs ≤ k'.allocs ∧ k'.allocs ≤ (boot 10).allocs + 1
      ∧ (boot 10).frees ≤ k'.frees :=
  ⟨rfl, session_balanced record 3 (boot 10) true [] 0 rfl⟩

/-! ## Allocation failure -/

/-- C7: when `kmalloc` fails in `start` at a position below the limit, `start`
returns `NULL`, `even_ptr` is `NULL` and nothing was allocated; the `stop` that
follows changes nothing, so it frees nothing; and in a session that started
with `even_ptr = NULL` the state and the returned pointer are those of a
`start` at any exhausted position `q >= limit`, after which `stop` frees
nothing either. -/
theorem start_alloc_failure (k : Kernel) (pos : Int) (w : Addr) (hlt : pos < k.limit) :
    (ct_seq_start k false pos).2.2 = NULL
    ∧ (ct_seq_start k false pos).1.even_ptr = NULL
    ∧ (ct_seq_start k false pos).1.allocs = k.allocs
    ∧ (ct_seq_start k false pos).1.mem = k.mem
    ∧ ct_seq_stop (ct_seq_start k false pos).1 w = some (ct_seq_start k false pos).1
    ∧ (k.even_ptr = NULL → ∀ (q : Int) (ok : Bool), q ≥ k.limit →
        (ct_seq_start k false pos).1 = (ct_seq_start k ok q).1
        ∧ (ct_seq_start k false pos).2.2 = (ct_seq_start k ok q).2.2
        ∧ ct_seq_stop (ct_seq_start k ok q).1 w = some (ct_seq_start k ok q).1) := by
  rw [start_fail k pos hlt]
  refine ⟨rfl, rfl, rfl, rfl, stop_null _ w rfl, ?_⟩
  intro h0 q ok hq
  have hk : ({ k with even_ptr := NULL } : Kernel) = k := by rw [← h0]
  rw [start_done k ok q hq, hk]
  exact ⟨rfl, rfl, stop_null k w h0⟩

/-- With the default `limit = 10`, a failed allocation at position 0 looks
like a `start` at the exhausted position 10. -/
theorem start_alloc_failure_witness :
    (ct_seq_start (boot 10) false 0).2.2 = NULL
    ∧ (ct_seq_start (boot 10) false 0).1.even_ptr = NULL
    ∧ (ct_seq_start (boot 10) false 0).1.allocs = (boot 10).allocs
    ∧ (ct_seq_start (boot 10) false 0).1.mem = (boot 10).mem
    ∧ ct_seq_stop (ct_seq_start (boot 10) false 0).1 NULL
        = some (ct_seq_start (boot 10) false 0).1
    ∧ (ct_seq_start (boot 10) false 0).1 = (ct_seq_start (boot 10) true 10).1
    ∧ (ct_seq_start (boot 10) false 0).2.2 = (ct_seq_start (boot 10) true 10).2.2
    ∧ ct_seq_stop (ct_seq_start (boot 10) true 10).1 NULL
        = some (ct_seq_start (boot 10) true 10).1 :=
  have h := start_alloc_failure (boot 10) 0 NULL (by decide)
  ⟨h.1, h.2.1, h.2.2.1, h.2.2.2.1, h.2.2.2.2.1, h.2.2.2.2.2 rfl 10 true (by decide)⟩

/-! ## `show` -/

/-- C8: for every live cursor `v` holding `x`, every sink state `s` and every
`seq_printf`, `show` returns 0, hands exactly `x` to `seq_printf`, and returns
the state unchanged (cell content, `even_ptr`, heap and allocation count; it
has no access to `*pos`); a second `show` right after it, on the sink the first
one left, hands the same `x` over again. -/
theorem show_pure {σ : Type} (seq_printf : σ → Int → σ) (k : Kernel) (s : σ) (v : Addr)
    (x : Int) (h : load k.mem v = some x) :
    ct_seq_show seq_printf k s v = some (k, seq_printf s x, 0)
    ∧ ct_seq_show seq_printf k (seq_printf s x) v
        = some (k, seq_printf (seq_printf s x) x, 0) := by
  simp [ct_seq_show, h]

/-- On the cursor opened at position 3 of the default sequence, two `show`
calls in a row both record 6. -/
theorem show_pure_witness :
    load (ct_seq_start (boot 10) true 3).1.mem 1 = some 6
    ∧ ct_seq_show record (ct_seq_start (boot 10) true 3).1 [] 1
        = some ((ct_seq_start (boot 10) true 3).1, record [] 6, 0)
    ∧ ct_seq_show record (ct_seq_start (boot 10) true 3).1 (record [] 6) 1
        = some ((ct_seq_start (boot 10) true 3).1, record (record [] 6) 6, 0) :=
  ⟨by decide, show_pure record (ct_seq_start (boot 10) true 3).1 [] 1 6 (by decide)⟩

/-! ## Resuming at the current position -/

/-- From a live cursor at position `i` holding `i * 2` as an `int`, `j` rounds
that stay below the limit leave the same cursor at position `i + j` holding
`(i + j) * 2` as an `int`. -/
theorem pairs_partial {σ : Type} (seq_printf : σ → Int → σ) (v : Addr) (hv : v ≠ NULL) :
    ∀ (j : Nat) (k : Kernel) (s : σ) (i : Int), 0 ≤ i → i + j < k.limit → IsInt32 k.limit →
      load k.mem v = some (toInt32 (i * 2)) →
      ∃ s', pairs seq_printf j k s v i
        = some ({ k with mem := store k.mem v (toInt32 ((i + j) * 2)) }, s', v, i + j) := by
  intro j
  induction j with
  | zero =>
    intro k s i _ _ _ hload
    refine ⟨s, ?_⟩
    simp only [pairs, Nat.cast_zero, add_zero]
    rw [store_load_self _ _ _ hload]
  | succ j ih =>
    intro k s i hi hlt hint hload
    have hlim := hint.2
    push_cast at hlt
    have h64 : toInt64 (i + 1) = i + 1 := toInt64_of_range _ (by omega) (by omega)
    have hnd : ¬ i + 1 ≥ k.limit := by omega
    have h32 : toInt32 (toInt32 (i * 2) + 2) = toInt32 ((i + 1) * 2) := by
      rw [toInt32_add_two]; congr 1; ring
    have hshow : ct_seq_show seq_printf k s v = some (k, seq_printf s (toInt32 (i * 2)), 0) := by
      simp [ct_seq_show, hload]
    have hnext : ct_seq_next k v i
        = some ({ k with mem := store k.mem v (toInt32 ((i + 1) * 2)) }, i + 1, v) := by
      simp only [ct_seq_next, h64, if_neg hnd, hload, h32]
    obtain ⟨s', h⟩ := ih { k with mem := store k.mem v (toInt32 ((i + 1) * 2)) }
      (seq_printf s (toInt32 (i * 2))) (i + 1) (by omega) (by simpa using by omega) hint
      (load_store_same _ _ _ (by simp [hload]))
    simp only [store_store] at h
    refine ⟨s', ?_⟩
    simp only [pairs, hshow, hnext, if_neg hv]
    rw [h]
    have e : i + 1 + (j : Int) = i + ((j + 1 : Nat) : Int) := by push_cast; ring
    rw [e]

/-- C9: for every start `p` with `0 <= p < limit` and every `j` with
`p + j < limit`, the read `start(p)` followed by `j` rounds of `show` and `next`
ends on a live cursor at position `p + j` whose value `x` is `(p + j) * 2` as a
32-bit `int`, the value the `+= 2` steps reach also when they wrap; a `start`
at `p + j` from any state `k0` with the same limit returns a cursor holding the
same `x`, and so does the `start` at `p + j` that follows the `stop` of this
read. -/
theorem reopen_same_value {σ : Type} (seq_printf : σ → Int → σ) (k k0 : Kernel) (s : σ)
    (p : Int) (j : Nat) (h0 : 0 ≤ p) (hlt : p + j < k.limit) (hint : IsInt32 k.limit)
    (hk0 : k0.limit = k.limit) :
    ∃ k1 s1 v1 x, run seq_printf j k true s p = some (k1, s1, v1, p + j)
      ∧ v1 ≠ NULL ∧ k1.even_ptr = v1
      ∧ load k1.mem v1 = some x
      ∧ x = toInt32 ((p + j) * 2)
      ∧ load (ct_seq_start k0 true (p + j)).1.mem (ct_seq_start k0 true (p + j)).2.2 = some x
      ∧ ∃ k2, ct_seq_stop k1 v1 = some k2
          ∧ load (ct_seq_start k2 true (p + j)).1.mem (ct_seq_start k2 true (p + j)).2.2
              = some x := by
  have hp : p < k.limit := by omega
  have hv : k.brk + 1 ≠ NULL := by simp [NULL]
  obtain ⟨s', h⟩ := pairs_partial seq_printf (k.brk + 1) hv j
    { k with even_ptr := k.brk + 1, mem := (k.brk + 1, toInt32 (p * 2)) :: k.mem,
             brk := k.brk + 1, allocs := k.allocs + 1 } s p h0 hlt hint (by simp [load])
  have hstop := stop_held
    { k with even_ptr := k.brk + 1, mem := (k.brk + 1, toInt32 ((p + j) * 2)) :: k.mem,
             brk := k.brk + 1, allocs := k.allocs + 1 } (k.brk + 1) hv (by simp [load])
  refine ⟨{ k with even_ptr := k.brk + 1, mem := (k.brk + 1, toInt32 ((p + j) * 2)) :: k.mem,
                   brk := k.brk + 1, allocs := k.allocs + 1 }, s', k.brk + 1,
    toInt32 ((p + j) * 2), ?_, hv, rfl, by simp [load], rfl, ?_, _, hstop, ?_⟩
  · simp only [run, start_ok k p hp, if_neg hv, h]
    simp [store]
  · rw [start_ok k0 (p + j) (by omega)]
    simp [load]
  · rw [start_ok _ (p + j) (by simpa using hlt)]
    simp [load]

/-- With `limit = 2^31 - 1`, `start(2^30 - 1)` and two rounds wrap around to
`-2^31 + 2`, which is also what `start(2^30 + 1)` returns, from the initial
state and after the `stop`. -/
theorem reopen_same_value_witness :
    ∃ k1 s1 v1 x, run record 2 (boot 2147483647) true [] 1073741823
          = some (k1, s1, v1, 1073741823 + ((2 : Nat) : Int))
      ∧ v1 ≠ NULL ∧ k1.even_ptr = v1
      ∧ load k1.mem v1 = some x
      ∧ x = toInt32 ((1073741823 + ((2 : Nat) : Int)) * 2)
      ∧ load (ct_seq_start (boot 2147483647) true (1073741823 + ((2 : Nat) : Int))).1.mem
          (ct_seq_start (boot 2147483647) true (1073741823 + ((2 : Nat) : Int))).2.2 = some x
      ∧ ∃ k2, ct_seq_stop k1 v1 = some k2
          ∧ load (ct_seq_start k2 true (1073741823 + ((2 : Nat) : Int))).1.mem
              (ct_seq_start k2 true (1073741823 + ((2 : Nat) : Int))).2.2 = some x :=
  reopen_same_value record (boot 2147483647) (boot 2147483647) [] 1073741823 2 (by decide)
    (by decide) (by decide) rfl

/-! ## Module initialisation -/

/-- C10 fails as stated: with `limit = -1`, `ct_init` returns 0 (success) and
the entry `evens` is registered; the setup is not rejected. -/
theorem init_accepts_negative_limit :
    (boot (-1)).limit < 0
    ∧ ¬ ((ct_init (boot (-1)) true).2 ≠ 0)
    ∧ (ct_init (boot (-1)) true).1.proc = ["evens"]
    ∧ (ct_init (boot (-1)) true).1.limit = -1 := by
  decide

/-- C10 (amended): `ct_init` does not look at `limit`: for every limit,
negative ones included, it returns 0, keeps `limit`, and registers `evens`
whenever `proc_create` succeeds; with a negative limit every `start` at a
position `pos >= 0` then returns `NULL` with the state unchanged, so a read
outputs nothing. -/
theorem init_ignores_limit (k : Kernel) (ok ok' : Bool) (pos : Int) :
    (ct_init k ok).2 = 0
    ∧ (ct_init k ok).1.limit = k.limit
    ∧ (ok = true → "evens" ∈ (ct_init k ok).1.proc)
    ∧ (k.limit < 0 → 0 ≤ pos →
        ct_seq_start (ct_init k ok).1 ok' pos = ((ct_init k ok).1, pos, NULL)) := by
  have hl : (ct_init k ok).1.limit = k.limit := by
    cases ok <;> simp [ct_init, proc_create]
  refine ⟨rfl, hl, ?_, ?_⟩
  · intro h
    subst h
    simp [ct_init, proc_create]
  · intro hneg hpos
    exact start_done _ ok' pos (by rw [hl]; omega)

/-- With `limit = -1` the module loads and a read at position 0 ends at
once. -/
theorem init_ignores_limit_witness :
    (ct_init (boot (-1)) true).2 = 0
    ∧ (ct_init (boot (-1)) true).1.limit = (boot (-1)).limit
    ∧ "evens" ∈ (ct_init (boot (-1)) true).1.proc
    ∧ ct_seq_start (ct_init (boot (-1)) true).1 true 0 = ((ct_init (boot (-1)) true).1, 0, NULL) :=
  have h := init_ignores_limit (boot (-1)) true true 0
  ⟨h.1, h.2.1, h.2.2.1 rfl, h.2.2.2 (by decide) (by decide)⟩

/-! ## Exhausting reads in 32-bit arithmetic -/

theorem foldl_range_succ_shift {σ : Type} (g : σ → Int → σ) (f : Int → Int) (s : σ) (i : Int)
    (d : Nat) :
    (List.range (d + 1)).foldl (fun acc (j : Nat) => g acc (f (i + j))) s
      = (List.range d).foldl (fun acc (j : Nat) => g acc (f (i + 1 + j))) (g s (f i)) := by
  rw [List.range_succ_eq_map, List.foldl_cons, List.foldl_map]
  have hf : (fun (acc : σ) (j : Nat) => g acc (f (i + ((j + 1 : Nat) : Int))))
      = (fun (acc : σ) (j : Nat) => g acc (f (i + 1 + j))) := by
    funext acc j
    congr 2
    push_cast
    ring
  simp only [Nat.succ_eq_add_one, hf]
  simp

/-- From a live cursor at position `i` holding `i * 2` as an `int`, with `d`
positions left below the limit and at least `d` rounds allowed, the loop shows
the `int` values of `i * 2, ..., (limit - 1) * 2` and ends with `next`
returning `NULL` at `*pos = limit`. -/
theorem pairs_exhaust {σ : Type} (seq_printf : σ → Int → σ) (v : Addr) (hv : v ≠ NULL) :
    ∀ (d n : Nat) (k : Kernel) (s : σ) (i : Int), 0 ≤ i → i + d = k.limit →
      IsInt32 k.limit → d ≤ n → 0 < d → load k.mem v = some (toInt32 (i * 2)) →
      pairs seq_printf n k s v i
        = some ({ k with mem := store k.mem v (toInt32 ((k.limit - 1) * 2)) },
            (List.range d).foldl
              (fun acc (j : Nat) => seq_printf acc (toInt32 ((i + j) * 2))) s,
            NULL, k.limit) := by
  intro d
  induction d with
  | zero => intro n k s i _ _ _ _ h0; omega
  | succ d ih =>
    intro n k s i hi hlim hint hn _ hload
    obtain ⟨n, rfl⟩ : ∃ m, n = m + 1 := ⟨n - 1, by omega⟩
    have hmax := hint.2
    push_cast at hlim
    have h64 : toInt64 (i + 1) = i + 1 := toInt64_of_range _ (by omega) (by omega)
    have hshow : ct_seq_show seq_printf k s v
        = some (k, seq_printf s (toInt32 (i * 2)), 0) := by
      simp [ct_seq_show, hload]
    rw [foldl_range_succ_shift seq_printf (fun y => toInt32 (y * 2))]
    by_cases hd : d = 0
    · subst hd
      have hge : i + 1 ≥ k.limit := by omega
      have hval : k.limit - 1 = i := by omega
      have hk : ({ k with mem := store k.mem v (toInt32 ((k.limit - 1) * 2)) } : Kernel) = k := by
        rw [hval, store_load_self _ _ _ hload]
      have hpos : i + 1 = k.limit := by omega
      have hnext : ct_seq_next k v i = some (k, i + 1, NULL) := by
        simp only [ct_seq_next, h64, if_pos hge]
      simp only [pairs, hshow, hnext, hk, hpos]
      simp
    · have hlt : ¬ i + 1 ≥ k.limit := by omega
      have h32 : toInt32 (toInt32 (i * 2) + 2) = toInt32 ((i + 1) * 2) := by
        rw [toInt32_add_two]; congr 1; ring
      have hnext : ct_seq_next k v i
          = some ({ k with mem := store k.mem v (toInt32 ((i + 1) * 2)) }, i + 1, v) := by
        simp only [ct_seq_next, h64, if_neg hlt, hload, h32]
      have := ih n { k with mem := store k.mem v (toInt32 ((i + 1) * 2)) }
        (seq_printf s (toInt32 (i * 2))) (i + 1) (by omega) (by simpa using by omega) hint
        (by omega) (by omega) (load_store_same _ _ _ (by simp [hload]))
      simp only [store_store] at this
      simp only [pairs, hshow, hnext, if_neg hv]
      exact this

/-- A read from position `p` below the limit, with a successful allocation and
at least `limit - p` rounds allowed, shows the `int` values of
`p * 2, ..., (limit - 1) * 2` and ends with `NULL` at `*pos = limit`. -/
theorem run_exhaust {σ : Type} (seq_printf : σ → Int → σ) (k : Kernel) (s : σ) (p : Int)
    (d n : Nat) (h0 : 0 ≤ p) (hd : p + d = k.limit) (hpos : 0 < d) (hint : IsInt32 k.limit)
    (hn : d ≤ n) :
    run seq_printf n k true s p
      = some ({ k with even_ptr := k.brk + 1,
                       mem := (k.brk + 1, toInt32 ((k.limit - 1) * 2)) :: k.mem,
                       brk := k.brk + 1, allocs := k.allocs + 1 },
          (List.range d).foldl (fun acc (j : Nat) => seq_printf acc (toInt32 ((p + j) * 2))) s,
          NULL, k.limit) := by
  have hp : p < k.limit := by omega
  have hv : k.brk + 1 ≠ NULL := by simp [NULL]
  have h := pairs_exhaust seq_printf (k.brk + 1) hv d n
    { k with even_ptr := k.brk + 1, mem := (k.brk + 1, toInt32 (p * 2)) :: k.mem,
             brk := k.brk + 1, allocs := k.allocs + 1 } s p h0 hd hint hn hpos
    (by simp [load])
  simp only [run, start_ok k p hp, if_neg hv, h]
  simp [store]

/-! ## Closed sessions -/

/-- A session whose `start` returns `NULL`, begun with `even_ptr = NULL`,
changes nothing. -/
theorem session_of_null {σ : Type} (seq_printf : σ → Int → σ) (n : Nat) (k : Kernel)
    (ok : Bool) (s : σ) (pos : Int) (h0 : k.even_ptr = NULL)
    (hnull : (ct_seq_start k ok pos).2.2 = NULL) :
    session seq_printf n k ok s pos = some (k, s, NULL, pos) := by
  have hk : ({ k with even_ptr := NULL } : Kernel) = k := by rw [← h0]
  by_cases hpos : pos ≥ k.limit
  · simp [session, run, start_done k ok pos hpos, stop_null k NULL h0]
  · cases ok
    · simp [session, run, start_fail k pos (by omega), hk, stop_null k NULL h0]
    · rw [start_ok k pos (by omega)] at hnull
      simp [NULL] at hnull

/-- A session whose `start` returns a cursor ends, whatever the number of
rounds, in the state it began in but for one more address handed out, one more
allocation and one more free. -/
theorem session_of_cursor {σ : Type} (seq_printf : σ → Int → σ) (n : Nat) (k : Kernel)
    (ok : Bool) (s : σ) (pos : Int) (hcur : (ct_seq_start k ok pos).2.2 ≠ NULL) :
    ∃ s1 v1 pos1, session seq_printf n k ok s pos
      = some ({ k with even_ptr := NULL, brk := k.brk + 1, allocs := k.allocs + 1,
                       frees := k.frees + 1 }, s1, v1, pos1) := by
  have hpos : ¬ pos ≥ k.limit := by
    intro h
    rw [start_done k ok pos h] at hcur
    exact hcur rfl
  cases ok
  · rw [start_fail k pos (by omega)] at hcur
    exact absurd rfl hcur
  · have ha : k.brk + 1 ≠ NULL := by simp [NULL]
    obtain ⟨x', s', v', pos', h⟩ := pairs_frame seq_printf (k.brk + 1) ha k.mem n
      { k with even_ptr := k.brk + 1, mem := (k.brk + 1, toInt32 (pos * 2)) :: k.mem,
               brk := k.brk + 1, allocs := k.allocs + 1 } s pos (toInt32 (pos * 2)) rfl
    have hstop := stop_held
      { k with even_ptr := k.brk + 1, mem := (k.brk + 1, x') :: k.mem,
               brk := k.brk + 1, allocs := k.allocs + 1 } v' ha (by simp [load])
    refine ⟨s', v', pos', ?_⟩
    simp only [session, run, start_ok k pos (by omega), if_neg ha, h]
    simp only [hstop]
    simp [release]

/-- A whole session from position 0 with a successful allocation and at least
`limit` rounds allowed, begun with `even_ptr = NULL`, shows the `int` values of
`0 * 2, ..., (limit - 1) * 2` and ends with `NULL` at `*pos = limit`. -/
theorem session_full {σ : Type} (seq_printf : σ → Int → σ) (k : Kernel) (s : σ) (n L : Nat)
    (h0 : k.even_ptr = NULL) (hL : k.limit = L) (hint : IsInt32 k.limit) (hn : L ≤ n) :
    ∃ k', session seq_printf n k true s 0
      = some (k', (List.range L).foldl
          (fun acc (i : Nat) => seq_printf acc (toInt32 ((i : Int) * 2))) s, NULL, (L : Int)) := by
  by_cases hz : L = 0
  · subst hz
    refine ⟨k, ?_⟩
    rw [session_of_null seq_printf n k true s 0 h0
      (by rw [start_done k true 0 (by rw [hL]; simp)])]
    simp
  · have h := run_exhaust seq_printf k s 0 L n (le_refl _) (by rw [hL]; simp) (by omega) hint hn
    have hv : k.brk + 1 ≠ NULL := by simp [NULL]
    have hstop := stop_held
      { k with even_ptr := k.brk + 1,
               mem := (k.brk + 1, toInt32 ((k.limit - 1) * 2)) :: k.mem,
               brk := k.brk + 1, allocs := k.allocs + 1 } NULL hv (by simp [load])
    refine ⟨{ k with even_ptr := NULL, brk := k.brk + 1, allocs := k.allocs + 1,
                     frees := k.frees + 1 }, ?_⟩
    simp only [session, h, hstop]
    simp [release, hL]

/-! ## Restart -/

theorem map_toInt32_double (L : Nat) (h : 2 * ((L : Int) - 1) ≤ 2147483647) :
    (List.range L).map (fun (i : Nat) => toInt32 ((i : Int) * 2))
      = (List.range L).map (fun (i : Nat) => 2 * (i : Int)) := by
  apply List.map_congr_left
  intro i hi
  have hi' : i < L := List.mem_range.mp hi
  rw [toInt32_of_range _ (by omega) (by omega)]
  ring

/-- C11 fails as stated: with `limit = 2^30 + 1`, after a session that was
closed right after `start`, the full session from position 0 ends at
`*pos = limit` but its output is not `0, 2, ..., 2 * (limit - 1)`: the element
of index `2^30` is `-2^31`. -/
theorem restart_sequence_wraps :
    ∃ k1 k2 out,
      session record 0 (boot 1073741825) true [] 0 = some (k1, [], 1, 0)
      ∧ session record 1073741825 k1 true [] 0 = some (k2, out, NULL, 1073741825)
      ∧ out[1073741824]? = some (-2147483648)
      ∧ out ≠ (List.range 1073741825).map (fun (i : Nat) => 2 * (i : Int)) := by
  have hk0 : ({ boot 1073741825 with brk := 1, allocs := 1, frees := 1 } : Kernel).even_ptr
      = NULL := rfl
  obtain ⟨k2, h2⟩ := session_full record
    { boot 1073741825 with brk := 1, allocs := 1, frees := 1 } [] 1073741825 1073741825 hk0
    (by simp [boot]) (by simp [boot, IsInt32]) (le_refl _)
  rw [foldl_record, List.nil_append] at h2
  have hget : ((List.range 1073741825).map (fun (i : Nat) => toInt32 ((i : Int) * 2)))[1073741824]?
      = some (-2147483648) := by
    rw [List.getElem?_map, List.getElem?_range (by norm_num)]
    simp [toInt32]
  refine ⟨{ boot 1073741825 with brk := 1, allocs := 1, frees := 1 }, k2, _, by decide,
    by simpa using h2, hget, ?_⟩
  intro heq
  rw [heq, List.getElem?_map, List.getElem?_range (by norm_num)] at hget
  simp at hget

/-- C11 (amended): what a full session from position 0 outputs does not depend
on what happened before it.  After every earlier session in the reader's order
(any start position, any number of rounds, allocation succeeding or not), begun
with `even_ptr = NULL`, a new session from `start(0)` with a successful
allocation outputs what the same session outputs from the state right after
loading: the values `i * 2` for `i = 0, ..., limit - 1` as 32-bit `int`s, in
that order, ending with `NULL` at `*pos = limit`; this is
`0, 2, ..., 2 * (limit - 1)` whenever `2 * (limit - 1)` fits an `int`. -/
theorem restart_same_sequence {σ σ0 : Type} (seq_printf : σ → Int → σ)
    (seq_printf0 : σ0 → Int → σ0) (k : Kernel) (n0 : Nat) (ok0 : Bool) (s0 : σ0) (pos0 : Int)
    (s : σ) (n L : Nat) (h0 : k.even_ptr = NULL) (hL : k.limit = L) (hint : IsInt32 k.limit)
    (hn : L ≤ n) :
    ∃ k1 s1 v1 pos1, session seq_printf0 n0 k ok0 s0 pos0 = some (k1, s1, v1, pos1)
      ∧ (∃ k2, session seq_printf n k1 true s 0
          = some (k2, (List.range L).foldl
              (fun acc (i : Nat) => seq_printf acc (toInt32 ((i : Int) * 2))) s, NULL, (L : Int)))
      ∧ (∃ k3, session seq_printf n (boot k.limit) true s 0
          = some (k3, (List.range L).foldl
              (fun acc (i : Nat) => seq_printf acc (toInt32 ((i : Int) * 2))) s, NULL, (L : Int)))
      ∧ (∃ k2, session record n k1 true [] 0
          = some (k2, (List.range L).map (fun (i : Nat) => toInt32 ((i : Int) * 2)), NULL,
              (L : Int)))
      ∧ (2 * (k.limit - 1) ≤ 2147483647 → ∃ k2, session record n k1 true [] 0
          = some (k2, (List.range L).map (fun (i : Nat) => 2 * (i : Int)), NULL, (L : Int))) := by
  have hboot := session_full seq_printf (boot k.limit) s n L rfl hL hint hn
  have key : ∀ k1 : Kernel, k1.even_ptr = NULL → k1.limit = k.limit →
      (∃ k2, session seq_printf n k1 true s 0
          = some (k2, (List.range L).foldl
              (fun acc (i : Nat) => seq_printf acc (toInt32 ((i : Int) * 2))) s, NULL, (L : Int)))
      ∧ (∃ k2, session record n k1 true [] 0
          = some (k2, (List.range L).map (fun (i : Nat) => toInt32 ((i : Int) * 2)), NULL,
              (L : Int)))
      ∧ (2 * (k.limit - 1) ≤ 2147483647 → ∃ k2, session record n k1 true [] 0
          = some (k2, (List.range L).map (fun (i : Nat) => 2 * (i : Int)), NULL, (L : Int))) := by
    intro k1 hp hl
    have hrec := session_full record k1 [] n L hp (by rw [hl, hL]) (by rw [hl]; exact hint) hn
    rw [foldl_record, List.nil_append] at hrec
    refine ⟨session_full seq_printf k1 s n L hp (by rw [hl, hL]) (by rw [hl]; exact hint) hn,
      hrec, ?_⟩
    intro hsmall
    rw [← map_toInt32_double L (by rw [← hL]; exact hsmall)]
    exact hrec
  by_cases hnull : (ct_seq_start k ok0 pos0).2.2 = NULL
  · obtain ⟨a, b, c⟩ := key k h0 rfl
    exact ⟨k, s0, NULL, pos0, session_of_null seq_printf0 n0 k ok0 s0 pos0 h0 hnull,
      a, hboot, b, c⟩
  · obtain ⟨s1, v1, pos1, h1⟩ := session_of_cursor seq_printf0 n0 k ok0 s0 pos0 hnull
    obtain ⟨a, b, c⟩ := key { k with even_ptr := NULL, brk := k.brk + 1,
                                     allocs := k.allocs + 1, frees := k.frees + 1 } rfl rfl
    exact ⟨_, s1, v1, pos1, h1, a, hboot, b, c⟩

/-- With the default `limit = 10`, after a session closed early (three rounds
from position 2) a new session from position 0 outputs 0, 2, ..., 18. -/
theorem restart_same_sequence_witness :
    ∃ k1 s1 v1 pos1, session record 3 (boot 10) true [] 2 = some (k1, s1, v1, pos1)
      ∧ ∃ k2, session record 10 k1 true [] 0
          = some (k2, [0, 2, 4, 6, 8, 10, 12, 14, 16, 18], NULL, 10) :=
  have h := restart_same_sequence record record (boot 10) 3 true [] 2 [] 10 10 rfl rfl
    (by decide) (le_refl _)
  match h with
  | ⟨k1, s1, v1, pos1, h1, _, _, _, h5⟩ => ⟨k1, s1, v1, pos1, h1, h5 (by decide)⟩

/-! ## The cursor invariant -/

/-- Any sequence of `show` and `next` calls on the cursor at the head of the
heap, at a position `pos` with `0 <= pos < limit` and holding `pos * 2` as an
`int`, never fails and changes nothing but the content of that cell; while
`next` has not returned `NULL` the pointer is the same, the position stays in
`0 <= pos' < limit` and the cell holds `pos' * 2` as an `int`. -/
theorem steps_inv {σ : Type} (seq_printf : σ → Int → σ) (a : Addr) (ha : a ≠ NULL)
    (m : List (Addr × Int)) :
    ∀ (cs : List Call) (k : Kernel) (s : σ) (pos : Int), 0 ≤ pos → pos < k.limit →
      IsInt32 k.limit → k.mem = (a, toInt32 (pos * 2)) :: m →
      ∃ x' s' v' pos', steps seq_printf cs k s a pos
          = some ({ k with mem := (a, x') :: m }, s', v', pos')
        ∧ pos ≤ pos' ∧ pos' ≤ k.limit
        ∧ (v' ≠ NULL → v' = a ∧ pos' < k.limit ∧ x' = toInt32 (pos' * 2)) := by
  intro cs
  induction cs with
  | nil =>
    intro k s pos _ hlt _ hm
    refine ⟨toInt32 (pos * 2), s, a, pos, ?_, le_refl _, le_of_lt hlt, fun _ => ⟨rfl, hlt, rfl⟩⟩
    rw [← hm]
    rfl
  | cons c cs ih =>
    intro k s pos h0 hlt hint hm
    have hload : load k.mem a = some (toInt32 (pos * 2)) := by simp [hm, load]
    cases c with
    | seqShow =>
      have hshow : ct_seq_show seq_printf k s a
          = some (k, seq_printf s (toInt32 (pos * 2)), 0) := by
        simp [ct_seq_show, hload]
      obtain ⟨x', s', v', pos', h, hr⟩ := ih k (seq_printf s (toInt32 (pos * 2))) pos h0 hlt
        hint hm
      refine ⟨x', s', v', pos', ?_, hr⟩
      simp only [steps, hshow]
      exact h
    | seqNext =>
      have hmax := hint.2
      have h64 : toInt64 (pos + 1) = pos + 1 := toInt64_of_range _ (by omega) (by omega)
      by_cases hdone : pos + 1 ≥ k.limit
      · have hnext : ct_seq_next k a pos = some (k, pos + 1, NULL) := by
          simp only [ct_seq_next, h64, if_pos hdone]
        refine ⟨toInt32 (pos * 2), s, NULL, pos + 1, ?_, by omega, by omega,
          fun h => absurd rfl h⟩
        simp only [steps, hnext, if_true]
        rw [← hm]
      · have h32 : toInt32 (toInt32 (pos * 2) + 2) = toInt32 ((pos + 1) * 2) := by
          rw [toInt32_add_two]; congr 1; ring
        have hnext : ct_seq_next k a pos
            = some ({ k with mem := (a, toInt32 ((pos + 1) * 2)) :: m }, pos + 1, a) := by
          simp only [ct_seq_next, h64, if_neg hdone, hload, h32]
          simp [hm, store]
        obtain ⟨x', s', v', pos', h, h1, h2, h3⟩ :=
          ih { k with mem := (a, toInt32 ((pos + 1) * 2)) :: m } s (pos + 1) (by omega)
            (by simpa using by omega) hint rfl
        refine ⟨x', s', v', pos', ?_, by omega, h2, h3⟩
        simp only [steps, hnext, if_neg ha]
        exact h

/-- C12 fails as stated: with `limit = 2^31 - 1`, after `start(2^30 - 1)` and
one `next` that returned the cursor, the position is `2^30`, inside
`0 <= position < limit`, and the cursor holds `-2^31`, not `2^30 * 2`. -/
theorem cursor_value_wraps :
    ∃ k', steps record [Call.seqNext] (ct_seq_start (boot 2147483647) true 1073741823).1 []
          (ct_seq_start (boot 2147483647) true 1073741823).2.2 1073741823
        = some (k', [], 1, 1073741824)
      ∧ (0 : Int) ≤ 1073741824 ∧ (1073741824 : Int) < k'.limit
      ∧ load k'.mem 1 = some (-2147483648)
      ∧ load k'.mem 1 ≠ some (1073741824 * 2) :=
  ⟨{ boot 2147483647 with even_ptr := 1, mem := [(1, -2147483648)], brk := 1, allocs := 1 },
    by decide⟩

/-- C12 (amended): in every state reached by a `start(p)` with `p >= 0` that
returned a cursor, followed by any sequence of `show` calls and of `next`
calls that returned a cursor, the cursor is the one in `even_ptr`, the
position satisfies `0 <= position < limit`, and the cell holds
`position * 2` reduced to a 32-bit `int`, which is exactly `position * 2`
whenever `position * 2 <= 2^31 - 1` (so always when `limit <= 2^30`). -/
theorem cursor_invariant {σ : Type} (seq_printf : σ → Int → σ) (k : Kernel) (ok : Bool) (s : σ)
    (p : Int) (cs : List Call) (h0 : 0 ≤ p) (hint : IsInt32 k.limit)
    (hcur : (ct_seq_start k ok p).2.2 ≠ NULL) :
    ∃ k' s' v' pos',
      steps seq_printf cs (ct_seq_start k ok p).1 s (ct_seq_start k ok p).2.2 p
        = some (k', s', v', pos')
      ∧ (v' ≠ NULL → k'.even_ptr = v' ∧ 0 ≤ pos' ∧ pos' < k'.limit
          ∧ load k'.mem v' = some (toInt32 (pos' * 2))
          ∧ (pos' * 2 ≤ 2147483647 → load k'.mem v' = some (pos' * 2))
          ∧ (k'.limit ≤ 1073741824 → load k'.mem v' = some (pos' * 2))) := by
  have hpos : ¬ p ≥ k.limit := by
    intro h
    rw [start_done k ok p h] at hcur
    exact hcur rfl
  cases ok
  · rw [start_fail k p (by omega)] at hcur
    exact absurd rfl hcur
  · have ha : k.brk + 1 ≠ NULL := by simp [NULL]
    rw [start_ok k p (by omega)]
    obtain ⟨x', s', v', pos', h, h1, _, h3⟩ := steps_inv seq_printf (k.brk + 1) ha k.mem cs
      { k with even_ptr := k.brk + 1, mem := (k.brk + 1, toInt32 (p * 2)) :: k.mem,
               brk := k.brk + 1, allocs := k.allocs + 1 } s p h0 (by simpa using by omega)
      hint rfl
    refine ⟨_, s', v', pos', h, ?_⟩
    intro hv
    obtain ⟨e, hlt, hx⟩ := h3 hv
    subst e
    subst hx
    have hlt' : pos' < k.limit := hlt
    refine ⟨rfl, by omega, hlt, by simp [load], ?_, ?_⟩
    · intro hs
      simp [load, toInt32_of_range (pos' * 2) (by omega) hs]
    · intro hl
      have hl' : k.limit ≤ 1073741824 := hl
      simp [load, toInt32_of_range (pos' * 2) (by omega) (by omega)]

/-- In the default sequence the invariant holds after `start(2)`, a `show`,
two `next` and a `show`. -/
theorem cursor_invariant_witness :
    ∃ k' s' v' pos',
      steps record [Call.seqShow, Call.seqNext, Call.seqNext, Call.seqShow]
          (ct_seq_start (boot 10) true 2).1 [] (ct_seq_start (boot 10) true 2).2.2 2
        = some (k', s', v', pos')
      ∧ (v' ≠ NULL → k'.even_ptr = v' ∧ 0 ≤ pos' ∧ pos' < k'.limit
          ∧ load k'.mem v' = some (toInt32 (pos' * 2))
          ∧ (pos' * 2 ≤ 2147483647 → load k'.mem v' = some (pos' * 2))
          ∧ (k'.limit ≤ 1073741824 → load k'.mem v' = some (pos' * 2))) :=
  cursor_invariant record (boot 10) true [] 2
    [Call.seqShow, Call.seqNext, Call.seqNext, Call.seqShow] (by decide) (by decide) (by decide)

/-! ## Termination -/

/-- The position that `next` leaves is the position it was given plus one,
whether it returns the cursor or `NULL`, for every `loff_t` but the largest. -/
theorem next_pos (k : Kernel) (v : Addr) (q : Int) (r : Kernel × Int × Addr)
    (hlo : -9223372036854775808 ≤ q) (hhi : q < 9223372036854775807)
    (h : ct_seq_next k v q = some r) : r.2.1 = q + 1 := by
  have h64 : toInt64 (q + 1) = q + 1 := toInt64_of_range _ (by omega) (by omega)
  unfold ct_seq_next at h
  split at h
  · rw [← Option.some.inj h]; exact h64
  · split at h
    · simp at h
    · rw [← Option.some.inj h]; exact h64

/-- A read from position `p` with `j` rounds that stay below the limit ends on
the cursor, at position `p + j`. -/
theorem run_partial {σ : Type} (seq_printf : σ → Int → σ) (k : Kernel) (s : σ) (p : Int)
    (j : Nat) (h0 : 0 ≤ p) (hlt : p + j < k.limit) (hint : IsInt32 k.limit) :
    ∃ k1 s1 v1, run seq_printf j k true s p = some (k1, s1, v1, p + j) ∧ v1 ≠ NULL
      ∧ k1.even_ptr = v1 := by
  have hp : p < k.limit := by omega
  have hv : k.brk + 1 ≠ NULL := by simp [NULL]
  obtain ⟨s', h⟩ := pairs_partial seq_printf (k.brk + 1) hv j
    { k with even_ptr := k.brk + 1, mem := (k.brk + 1, toInt32 (p * 2)) :: k.mem,
             brk := k.brk + 1, allocs := k.allocs + 1 } s p h0 hlt hint (by simp [load])
  refine ⟨{ k with even_ptr := k.brk + 1,
                   mem := (k.brk + 1, toInt32 ((p + j) * 2)) :: k.mem,
                   brk := k.brk + 1, allocs := k.allocs + 1 }, s', k.brk + 1, ?_, hv, rfl⟩
  simp only [run, start_ok k p hp, if_neg hv, h]
  simp [store]

/-- C13: every `next` moves the position up by exactly one, also the one that
returns `NULL` (for every position but the largest `loff_t`, which no read
reaches).  So for every start `p` with `0 <= p < limit`, writing
`d = limit - p`: a read with fewer than `d` rounds still holds the cursor, at
position `p` plus the number of rounds, and a read with `d` rounds (or more
allowed) has ended with `NULL` at position `limit = p + d`; `d` is at most
`limit`; and a `start` at that position `limit` returns `NULL`. -/
theorem advance_terminates {σ : Type} (seq_printf : σ → Int → σ) (k : Kernel) (s : σ)
    (p : Int) (d n : Nat) (h0 : 0 ≤ p) (hd : p + d = k.limit) (hpos : 0 < d)
    (hint : IsInt32 k.limit) (hn : d ≤ n) :
    (∀ (k0 : Kernel) (v : Addr) (q : Int) (r : Kernel × Int × Addr),
        -9223372036854775808 ≤ q → q < 9223372036854775807 →
        ct_seq_next k0 v q = some r → r.2.1 = q + 1)
    ∧ (∀ j : Nat, j < d →
        ∃ k1 s1 v1, run seq_printf j k true s p = some (k1, s1, v1, p + j) ∧ v1 ≠ NULL)
    ∧ (∃ k1 s1, run seq_printf n k true s p = some (k1, s1, NULL, k.limit)
        ∧ run seq_printf d k true s p = some (k1, s1, NULL, p + d)
        ∧ ∀ ok, ct_seq_start k1 ok k.limit = (k1, k.limit, NULL))
    ∧ (d : Int) ≤ k.limit := by
  refine ⟨next_pos, ?_, ?_, by omega⟩
  · intro j hj
    obtain ⟨k1, s1, v1, h, hv, _⟩ := run_partial seq_printf k s p j h0 (by omega) hint
    exact ⟨k1, s1, v1, h, hv⟩
  · refine ⟨_, _, run_exhaust seq_printf k s p d n h0 hd hpos hint hn, ?_, ?_⟩
    · rw [hd]
      exact run_exhaust seq_printf k s p d d h0 hd hpos hint (le_refl _)
    · intro ok
      exact start_done _ ok k.limit (le_refl _)

/-- In the default sequence a read from position 7 still holds the cursor
after two rounds and has ended after three, at position 10, where `start`
returns `NULL`. -/
theorem advance_terminates_witness :
    (∃ k1 s1 v1, run record 2 (boot 10) true [] 7 = some (k1, s1, v1, 7 + ((2 : Nat) : Int))
        ∧ v1 ≠ NULL)
    ∧ (∃ k1 s1, run record 3 (boot 10) true [] 7 = some (k1, s1, NULL, (boot 10).limit)
        ∧ run record 3 (boot 10) true [] 7 = some (k1, s1, NULL, 7 + ((3 : Nat) : Int))
        ∧ ∀ ok, ct_seq_start k1 ok (boot 10).limit = (k1, (boot 10).limit, NULL)) :=
  have h := advance_terminates record (boot 10) [] 7 3 3 (by decide) (by decide) (by decide)
    (by decide) (le_refl _)
  ⟨h.2.1 2 (by decide), h.2.2.1⟩

/-! ## One cursor per session -/

/-- The allocation count after `start`: one more when it returned a cursor,
unchanged when it returned `NULL`. -/
theorem start_allocs (k : Kernel) (ok : Bool) (pos : Int) :
    (ct_seq_start k ok pos).1.allocs
      = k.allocs + (if (ct_seq_start k ok pos).2.2 = NULL then 0 else 1) := by
  by_cases hpos : pos ≥ k.limit
  · rw [start_done k ok pos hpos]; simp
  · cases ok
    · rw [start_fail k pos (by omega)]; simp
    · rw [start_ok k pos (by omega)]; simp [NULL]

/-- What a `next` that returned does: at the limit nothing, below it the cell
at `v` is overwritten in place and `v` is returned. -/
theorem next_effect (k : Kernel) (v : Addr) (q : Int) (r : Kernel × Int × Addr)
    (h : ct_seq_next k v q = some r) :
    (r.2.2 = NULL ∧ r.1 = k)
    ∨ (r.2.2 = v ∧ ∃ x, load k.mem v = some x
        ∧ r.1 = { k with mem := store k.mem v (toInt32 (x + 2)) }) := by
  unfold ct_seq_next at h
  split at h
  · rw [← Option.some.inj h]; exact Or.inl ⟨rfl, rfl⟩
  · split at h
    · simp at h
    · rename_i x hx
      rw [← Option.some.inj h]
      exact Or.inr ⟨rfl, x, hx, rfl⟩

/-- C14: one cursor per session.  `start` makes one allocation when it returns
a cursor and none when it returns `NULL`; `show` returns the state unchanged;
`next` allocates nothing, hands out no address and leaves `even_ptr` alone,
and when it does not return `NULL` it returns the very pointer it was given,
whose cell it has overwritten in place (the live addresses are the same); so a
whole session begun with `even_ptr = NULL`, whatever its number of rounds,
makes one allocation if `start` returned a cursor and none otherwise. -/
theorem one_allocation {σ : Type} (seq_printf : σ → Int → σ) (n : Nat) (k : Kernel) (ok : Bool)
    (s : σ) (pos : Int) (v : Addr) (q : Int) :
    (ct_seq_start k ok pos).1.allocs
        = k.allocs + (if (ct_seq_start k ok pos).2.2 = NULL then 0 else 1)
    ∧ (∀ r, ct_seq_show seq_printf k s v = some r → r.1 = k)
    ∧ (∀ r, ct_seq_next k v q = some r →
        r.1.allocs = k.allocs ∧ r.1.brk = k.brk ∧ r.1.even_ptr = k.even_ptr
        ∧ r.1.mem.map Prod.fst = k.mem.map Prod.fst
        ∧ (r.2.2 ≠ NULL → r.2.2 = v ∧ ∃ x, load k.mem v = some x
            ∧ r.1 = { k with mem := store k.mem v (toInt32 (x + 2)) }))
    ∧ (k.even_ptr = NULL →
        ∃ k' s' v' pos', session seq_printf n k ok s pos = some (k', s', v', pos')
          ∧ k'.allocs = k.allocs + (if (ct_seq_start k ok pos).2.2 = NULL then 0 else 1)) := by
  refine ⟨start_allocs k ok pos, ?_, ?_, ?_⟩
  · intro r h
    unfold ct_seq_show at h
    split at h
    · simp at h
    · rw [← Option.some.inj h]
  · intro r h
    rcases next_effect k v q r h with ⟨hnull, hk⟩ | ⟨hv, x, hx, hk⟩
    · rw [hk]
      exact ⟨rfl, rfl, rfl, rfl, fun hne => absurd hnull hne⟩
    · rw [hk]
      exact ⟨rfl, rfl, rfl, store_fst _ _ _, fun _ => ⟨hv, x, hx, rfl⟩⟩
  · intro h0
    by_cases hnull : (ct_seq_start k ok pos).2.2 = NULL
    · exact ⟨k, s, NULL, pos, session_of_null seq_printf n k ok s pos h0 hnull, by simp [hnull]⟩
    · obtain ⟨s1, v1, pos1, h1⟩ := session_of_cursor seq_printf n k ok s pos hnull
      exact ⟨_, s1, v1, pos1, h1, by simp [hnull]⟩

/-- In the default sequence a session of four rounds makes one allocation and
a session whose allocation fails makes none. -/
theorem one_allocation_witness :
    (∃ k' s' v' pos', session record 4 (boot 10) true [] 0 = some (k', s', v', pos')
        ∧ k'.allocs = (boot 10).allocs
            + (if (ct_seq_start (boot 10) true 0).2.2 = NULL then 0 else 1))
    ∧ (∃ k' s' v' pos', session record 4 (boot 10) false [] 0 = some (k', s', v', pos')
        ∧ k'.allocs = (boot 10).allocs
            + (if (ct_seq_start (boot 10) false 0).2.2 = NULL then 0 else 1)) :=
  ⟨(one_allocation record 4 (boot 10) true [] 0 NULL 0).2.2.2 rfl,
   (one_allocation record 4 (boot 10) false [] 0 NULL 0).2.2.2 rfl⟩

/-! ## 32-bit exactness -/

theorem toInt32_range (x : Int) : IsInt32 (toInt32 x) := by
  unfold IsInt32 toInt32; omega

theorem toInt32_next (q : Int) :
    toInt32 (toInt32 (q * 2) + 2) = toInt32 (toInt64 (q + 1) * 2) := by
  unfold toInt32 toInt64; omega

/-- Any sequence of `show` and `next` calls on the cursor at the head of the
heap, at a position `pos` with `0 <= pos < limit` and holding `pos * 2` as an
`int`, never fails and changes nothing but the content of that cell.  While
`next` has not returned `NULL` the pointer is the same, the position is below
the limit and the cell holds the position times 2 as an `int`; once `next` has
returned `NULL` the position is `limit` and the cell still holds
`(limit - 1) * 2` as an `int`. -/
theorem steps_value {σ : Type} (seq_printf : σ → Int → σ) (a : Addr) (ha : a ≠ NULL)
    (m : List (Addr × Int)) :
    ∀ (cs : List Call) (k : Kernel) (s : σ) (pos : Int), 0 ≤ pos → pos < k.limit →
      IsInt32 k.limit → k.mem = (a, toInt32 (pos * 2)) :: m →
      ∃ x' s' v' pos', steps seq_printf cs k s a pos
          = some ({ k with mem := (a, x') :: m }, s', v', pos')
        ∧ (v' ≠ NULL → v' = a ∧ 0 ≤ pos' ∧ pos' < k.limit ∧ x' = toInt32 (pos' * 2))
        ∧ (v' = NULL → pos' = k.limit ∧ x' = toInt32 ((k.limit - 1) * 2)) := by
  intro cs
  induction cs with
  | nil =>
    intro k s pos h0 hlt _ hm
    refine ⟨toInt32 (pos * 2), s, a, pos, ?_, fun _ => ⟨rfl, h0, hlt, rfl⟩,
      fun h => absurd h ha⟩
    rw [← hm]
    rfl
  | cons c cs ih =>
    intro k s pos h0 hlt hint hm
    have hload : load k.mem a = some (toInt32 (pos * 2)) := by simp [hm, load]
    cases c with
    | seqShow =>
      have hshow : ct_seq_show seq_printf k s a
          = some (k, seq_printf s (toInt32 (pos * 2)), 0) := by
        simp [ct_seq_show, hload]
      obtain ⟨x', s', v', pos', h, hr⟩ := ih k (seq_printf s (toInt32 (pos * 2))) pos h0 hlt
        hint hm
      refine ⟨x', s', v', pos', ?_, hr⟩
      simp only [steps, hshow]
      exact h
    | seqNext =>
      have hmax := hint.2
      have h64 : toInt64 (pos + 1) = pos + 1 := toInt64_of_range _ (by omega) (by omega)
      by_cases hdone : pos + 1 ≥ k.limit
      · have hnext : ct_seq_next k a pos = some (k, pos + 1, NULL) := by
          simp only [ct_seq_next, h64, if_pos hdone]
        have hp : k.limit - 1 = pos := by omega
        refine ⟨toInt32 (pos * 2), s, NULL, pos + 1, ?_, fun h => absurd rfl h,
          fun _ => ⟨by omega, by rw [hp]⟩⟩
        simp only [steps, hnext, if_true]
        rw [← hm]
      · have h32 : toInt32 (toInt32 (pos * 2) + 2) = toInt32 ((pos + 1) * 2) := by
          rw [toInt32_add_two]; congr 1; ring
        have hnext : ct_seq_next k a pos
            = some ({ k with mem := (a, toInt32 ((pos + 1) * 2)) :: m }, pos + 1, a) := by
          simp only [ct_seq_next, h64, if_neg hdone, hload, h32]
          simp [hm, store]
        obtain ⟨x', s', v', pos', h, h1, h2⟩ :=
          ih { k with mem := (a, toInt32 ((pos + 1) * 2)) :: m } s (pos + 1) (by omega)
            (by simpa using by omega) hint rfl
        refine ⟨x', s', v', pos', ?_, h1, h2⟩
        simp only [steps, hnext, if_neg ha]
        exact h

/-- C15 fails as stated: with the default `limit = 10 <= 2^30`, the full read
from position 0 ends with the `next` that returns `NULL`; after it the
position is 10 and the cell that `even_ptr` still points to holds 18, which is
neither `10 * 2` nor `10 * 2` reduced to an `int`. -/
theorem value_after_last_next :
    ∃ k', run record 10 (boot 10) true [] 0
        = some (k', [0, 2, 4, 6, 8, 10, 12, 14, 16, 18], NULL, 10)
      ∧ k'.limit ≤ 1073741824
      ∧ k'.even_ptr ≠ NULL
      ∧ load k'.mem k'.even_ptr = some 18
      ∧ load k'.mem k'.even_ptr ≠ some (toInt32 (10 * 2))
      ∧ load k'.mem k'.even_ptr ≠ some (10 * 2) :=
  ⟨{ boot 10 with even_ptr := 1, mem := [(1, 18)], brk := 1, allocs := 1 }, by decide⟩

/-- C15 (amended): the cursor value is a 32-bit signed `int`.  `toInt32`
always lands in the signed 32-bit range; after `start(p)` the cell holds
`p * 2` reduced by `toInt32`; a `next` that returns the cursor takes a cell
holding `q * 2` reduced to one holding the new position times 2 reduced, for
every `q`; a `next` on a cursor that returns `NULL` moves the position, to a
value `>= limit`, and leaves the state, the cell included, as it was.  When `limit <= 2^30`, after `start(p)`
with `0 <= p < limit` and any sequence of `show` and `next` calls: while `next`
has not returned `NULL` the value of the cursor is exactly `position * 2`, and
once it has, the position is `limit` and the cell still held by `even_ptr`
holds exactly `(limit - 1) * 2`.  And with `limit = 2^31 - 1 > 2^30` the cursor
of `start(2^30)` holds a value other than `2^30 * 2`. -/
theorem value_is_int32 {σ : Type} (seq_printf : σ → Int → σ) (k : Kernel) (s : σ) (p : Int)
    (cs : List Call) (h0 : 0 ≤ p) (hlt : p < k.limit) :
    (∀ x, IsInt32 (toInt32 x))
    ∧ load (ct_seq_start k true p).1.mem (ct_seq_start k true p).2.2 = some (toInt32 (p * 2))
    ∧ (∀ (k0 : Kernel) (v : Addr) (q : Int) (r : Kernel × Int × Addr),
        load k0.mem v = some (toInt32 (q * 2)) → ct_seq_next k0 v q = some r → r.2.2 ≠ NULL →
        load r.1.mem r.2.2 = some (toInt32 (r.2.1 * 2)))
    ∧ (∀ (k0 : Kernel) (v : Addr) (q : Int) (r : Kernel × Int × Addr),
        v ≠ NULL → ct_seq_next k0 v q = some r → r.2.2 = NULL →
        r.1 = k0 ∧ r.2.1 = toInt64 (q + 1) ∧ r.2.1 ≥ k0.limit)
    ∧ (k.limit ≤ 1073741824 →
        ∃ k' s' v' pos',
          steps seq_printf cs (ct_seq_start k true p).1 s (ct_seq_start k true p).2.2 p
            = some (k', s', v', pos')
          ∧ k'.even_ptr = (ct_seq_start k true p).2.2 ∧ k'.even_ptr ≠ NULL
          ∧ (v' ≠ NULL → v' = k'.even_ptr ∧ 0 ≤ pos' ∧ pos' < k.limit
              ∧ load k'.mem v' = some (pos' * 2) ∧ toInt32 (pos' * 2) = pos' * 2)
          ∧ (v' = NULL → pos' = k.limit
              ∧ load k'.mem k'.even_ptr = some ((k.limit - 1) * 2)))
    ∧ (∃ (k1 : Kernel) (p1 : Int), 1073741824 < k1.limit ∧ IsInt32 k1.limit ∧ 0 ≤ p1
        ∧ p1 < k1.limit
        ∧ load (ct_seq_start k1 true p1).1.mem (ct_seq_start k1 true p1).2.2 ≠ some (p1 * 2)) := by
  refine ⟨toInt32_range, ?_, ?_, ?_, ?_, ⟨boot 2147483647, 1073741824, by decide⟩⟩
  · rw [start_ok k p hlt]
    simp [load]
  · intro k0 v q r hload h hv
    unfold ct_seq_next at h
    split at h
    · rw [← Option.some.inj h] at hv
      exact absurd rfl hv
    · rw [hload] at h
      rw [← Option.some.inj h]
      simp only
      rw [toInt32_next]
      exact load_store_same _ _ _ (by simp [hload])
  · intro k0 v q r hv h hnull
    unfold ct_seq_next at h
    split at h
    · rename_i hge
      rw [← Option.some.inj h]
      exact ⟨rfl, rfl, hge⟩
    · split at h
      · simp at h
      · rw [← Option.some.inj h] at hnull
        exact absurd hnull hv
  · intro hsmall
    have ha : k.brk + 1 ≠ NULL := by simp [NULL]
    rw [start_ok k p hlt]
    obtain ⟨x', s', v', pos', h, h1, h2⟩ := steps_value seq_printf (k.brk + 1) ha k.mem cs
      { k with even_ptr := k.brk + 1, mem := (k.brk + 1, toInt32 (p * 2)) :: k.mem,
               brk := k.brk + 1, allocs := k.allocs + 1 } s p h0 (by simpa using hlt)
      ⟨by simp only; omega, by simp only; omega⟩ rfl
    refine ⟨_, s', v', pos', h, rfl, ha, ?_, ?_⟩
    · intro hv
      obtain ⟨e, hpos0, hlt2, hx⟩ := h1 hv
      subst e
      subst hx
      have hlt' : pos' < k.limit := hlt2
      have hex : toInt32 (pos' * 2) = pos' * 2 := toInt32_of_range _ (by omega) (by omega)
      exact ⟨rfl, hpos0, hlt', by simp [load, hex], hex⟩
    · intro hv
      obtain ⟨hp, hx⟩ := h2 hv
      subst hx
      have hp' : pos' = k.limit := hp
      have hex : toInt32 ((k.limit - 1) * 2) = (k.limit - 1) * 2 :=
        toInt32_of_range _ (by omega) (by omega)
      exact ⟨hp', by simp [load, hex]⟩

/-- In the default sequence `start(8)` stores `toInt32 (8 * 2)`; after a
`next`, a `show` and a second `next`, which returns `NULL`, the position is 10
and the cell still held holds `(10 - 1) * 2`. -/
theorem value_is_int32_witness :
    load (ct_seq_start (boot 10) true 8).1.mem (ct_seq_start (boot 10) true 8).2.2
        = some (toInt32 (8 * 2))
    ∧ ∃ k' s' v' pos',
        steps record [Call.seqNext, Call.seqShow, Call.seqNext] (ct_seq_start (boot 10) true 8).1
            [] (ct_seq_start (boot 10) true 8).2.2 8
          = some (k', s', v', pos')
        ∧ k'.even_ptr = (ct_seq_start (boot 10) true 8).2.2 ∧ k'.even_ptr ≠ NULL
        ∧ (v' ≠ NULL → v' = k'.even_ptr ∧ 0 ≤ pos' ∧ pos' < (boot 10).limit
            ∧ load k'.mem v' = some (pos' * 2) ∧ toInt32 (pos' * 2) = pos' * 2)
        ∧ (v' = NULL → pos' = (boot 10).limit
            ∧ load k'.mem k'.even_ptr = some (((boot 10).limit - 1) * 2)) :=
  have h := value_is_int32 record (boot 10) [] 8 [Call.seqNext, Call.seqShow, Call.seqNext]
    (by decide) (by decide)
  ⟨h.2.1, h.2.2.2.2.1 (by decide)⟩

/-! ## The global pointer outside the reader's order -/

/-- With `even_ptr = NULL` any sequence of `stop` calls changes nothing. -/
theorem stops_null (ws : List Addr) (k : Kernel) (h : k.even_ptr = NULL) :
    stops ws k = some k := by
  induction ws with
  | nil => rfl
  | cons w ws ih => simp only [stops, stop_null k w h, ih]

/-- C16: `start` overwrites `even_ptr` without releasing what it held.  When
`start` succeeds twice below the limit with no `stop` between, the two cursors
are the distinct addresses `brk + 1` and `brk + 2`; after any one or more
`stop` calls that follow, whatever pointers they are passed, two allocations
and one free have been made, `even_ptr` is `NULL`, the second cursor is gone
from the heap and the first one is still allocated, its value untouched: no
`stop` releases it.  And `stop` does not depend on its argument: it releases
the cell `even_ptr` points to. -/
theorem double_start_leak (k : Kernel) (p q : Int) (w : Addr) (ws : List Addr) (v v' : Addr)
    (hp : p < k.limit) (hq : q < k.limit) :
    (ct_seq_start k true p).2.2 = k.brk + 1
    ∧ (ct_seq_start (ct_seq_start k true p).1 true q).2.2 = k.brk + 2
    ∧ (ct_seq_start (ct_seq_start k true p).1 true q).1.mem
        = (k.brk + 2, toInt32 (q * 2)) :: (k.brk + 1, toInt32 (p * 2)) :: k.mem
    ∧ stops (w :: ws) (ct_seq_start (ct_seq_start k true p).1 true q).1
        = some { k with even_ptr := NULL, mem := (k.brk + 1, toInt32 (p * 2)) :: k.mem,
                        brk := k.brk + 2, allocs := k.allocs + 2, frees := k.frees + 1 }
    ∧ (∀ k0 : Kernel, ct_seq_stop k0 v = ct_seq_stop k0 v')
    ∧ (∀ k0 : Kernel, k0.even_ptr ≠ NULL → (load k0.mem k0.even_ptr).isSome →
        ct_seq_stop k0 v = some { k0 with even_ptr := NULL, mem := release k0.mem k0.even_ptr,
                                          frees := k0.frees + 1 }) := by
  have hq' : q < (ct_seq_start k true p).1.limit := by rw [start_ok k p hp]; exact hq
  have h2 := start_ok (ct_seq_start k true p).1 q hq'
  rw [start_ok k p hp] at h2
  simp only [Nat.add_assoc, Nat.reduceAdd] at h2
  have hne : k.brk + 2 ≠ NULL := by simp [NULL]
  have hstop := stop_held
    { k with even_ptr := k.brk + 2,
             mem := (k.brk + 2, toInt32 (q * 2)) :: (k.brk + 1, toInt32 (p * 2)) :: k.mem,
             brk := k.brk + 2, allocs := k.allocs + 2 } w hne (by simp [load])
  simp only [release, if_true] at hstop
  refine ⟨by rw [start_ok k p hp], by rw [start_ok k p hp, h2], by rw [start_ok k p hp, h2],
    ?_, fun _ => rfl, fun k0 h hl => stop_held k0 v h hl⟩
  rw [start_ok k p hp, h2]
  simp only [stops, hstop]
  exact stops_null ws _ rfl

/-- In the default sequence, `start(0)`, `start(0)` and three `stop` calls,
the first of them passed the first cursor, leave the first cursor allocated
with one free made for two allocations. -/
theorem double_start_leak_witness :
    stops [1, 2, NULL] (ct_seq_start (ct_seq_start (boot 10) true 0).1 true 0).1
      = some { boot 10 with even_ptr := NULL,
                            mem := ((boot 10).brk + 1, toInt32 (0 * 2)) :: (boot 10).mem,
                            brk := (boot 10).brk + 2, allocs := (boot 10).allocs + 2,
                            frees := (boot 10).frees + 1 } :=
  (double_start_leak (boot 10) 0 0 1 [2, NULL] NULL NULL (by decide) (by decide)).2.2.2.1

end Evens
